import Mathlib

/-!
# Verification of the b6 intrusive container library

Shallow embedding of the C sources under `src/` of the gnu_basics (b6)
repository: dynamic vector (`src/vector.c`), AVL/red-black reference tree
(`src/refs.c`), top-down splay tree (`src/splay.c`), singly-linked deque
(`include/b6/deque.h`) and the chunked object pool (`src/pool.c`).

Machine integers of the C code (`unsigned long`) are modelled as `Nat`
with explicit reduction modulo `2 ^ 32` where the C arithmetic can wrap;
`unsigned long long` intermediates are exact (they never overflow for
operands below `2 ^ 32`).  Pointers become node identifiers (`Nat`), the
heap becomes a function from identifiers to node records, and every C
loop is given explicit fuel.  A `none`/junk result on fuel exhaustion or
on a null dereference models divergence or a crash of the C code.
-/

set_option autoImplicit false

namespace B6Vec

/-- Word bound for `unsigned long` values (32-bit model). -/
def W : Nat := 2 ^ 32

/-- `struct b6_vector` (include/b6/vector.h): `ops`, `allocator` are
behaviour parameters of the model; the buffer is modelled at item
granularity (all byte offsets in the source are multiples of `itemsize`). -/
structure Vec (α : Type) where
  itemsize : Nat
  capacity : Nat
  length   : Nat
  buffer   : Nat → α

/-- Semantics of the `move` callback of `struct b6_vector_ops`: an
overlapping-safe copy of `cnt` items from `src` to `dest`, i.e. `memmove`
at item granularity. -/
def memmove {α : Type} (buf : Nat → α) (dest src cnt : Nat) : Nat → α :=
  fun p => if dest ≤ p ∧ p < dest + cnt then buf (src + (p - dest)) else buf p

/-- The capacity-growth loop of `b6_vector_expand` (src/vector.c):
`for (capacity = cap0; n >= capacity - length; capacity *= 2)
   if (capacity < self->capacity) return NULL;`
with `unsigned long` wrap-around; fuel exhaustion models the loop
spinning forever (possible in C when the doubled capacity wraps to 0). -/
def growLoop (oldcap len n : Nat) : Nat → Nat → Option Nat
  | 0, _ => none
  | fuel + 1, cap =>
    if n ≥ (W + cap - len) % W then
      if cap < oldcap then none
      else growLoop oldcap len n fuel (cap * 2 % W)
    else some cap

/-- `b6_vector_expand` (src/vector.c).  `allocOk` is the oracle for the
success of `b6_reallocate`; on success the buffer contents are preserved
by the allocator contract and only the capacity changes. -/
def vectorExpand {α : Type} (v : Vec α) (n : Nat) (allocOk : Bool) : Option (Vec α) :=
  let cap0 := if v.capacity ≠ 0 then v.capacity * 2 % W else 2
  match growLoop v.capacity v.length n 64 cap0 with
  | none => none
  | some cap =>
    let size := v.itemsize * cap
    if size > W - 1 then none
    else if allocOk then some { v with capacity := cap }
    else none

/-- `__b6_vector_add` (src/vector.c).  Returns the byte offset of the
raw slot (`NULL` = `none`) together with the vector state after the call;
every failure `return NULL` of the source happens before any mutation, and
that order is preserved here. -/
def vectorAdd {α : Type} (v : Vec α) (index n : Nat) (allocOk : Bool) :
    Option Nat × Vec α :=
  let index := if index > v.length then v.length else index
  let r1 := v.itemsize * index
  if r1 > W - 1 then (none, v)
  else
    let s := r1
    if n = 0 then (some s, v)
    else
      let r2 := v.itemsize * n
      if r2 > W - 1 then (none, v)
      else
        let m := (v.length + n) % W
        if m < v.length then (none, v)
        else
          match (if m > v.capacity then vectorExpand v n allocOk else some v) with
          | none => (none, v)
          | some v1 =>
            let mm := v1.length - index
            let buf := if mm ≠ 0 then memmove v1.buffer (index + n) index mm
                       else v1.buffer
            (some s, { v1 with buffer := buf, length := v1.length + n })

/-- `__b6_vector_del` (src/vector.c).  Returns the removed count and the
new state.  Note the source moves `m = length - index` items from `index`
up to `index + n` (the same call as in `__b6_vector_add`). -/
def vectorDel {α : Type} (v : Vec α) (index n : Nat) : Nat × Vec α :=
  if n = 0 then (0, v)
  else if index ≥ v.length then (0, v)
  else
    let m := v.length - index
    if n ≥ m then (m, { v with length := v.length - m })
    else
      let r1 := v.itemsize * index
      if r1 > W - 1 then (0, v)
      else
        let r2 := v.itemsize * n
        if r2 > W - 1 then (0, v)
        else
          let buf := memmove v.buffer (index + n) index m
          (n, { v with buffer := buf, length := v.length - n })

/-- Observable contents of a vector: its first `length` items. -/
def contents {α : Type} (v : Vec α) : List α :=
  (List.range v.length).map v.buffer

/-- Concrete vector `[10, 20, 30]` with `itemsize = 1`, capacity 4. -/
def vBug : Vec Nat :=
  { itemsize := 1, capacity := 4, length := 3,
    buffer := fun p => if p = 0 then 10 else if p = 1 then 20 else if p = 2 then 30 else 0 }

/-- Concrete vector with `itemsize = 1`, capacity 2, length 2. -/
def vC3 : Vec Nat := { itemsize := 1, capacity := 2, length := 2, buffer := fun _ => 0 }

/-- Empty concrete vector with `itemsize = 1`. -/
def vC10 : Vec Nat := { itemsize := 1, capacity := 0, length := 0, buffer := fun _ => 0 }

/-- Doubling search for the smallest power of two (starting at 2) that is
`≥ m`; the value the specification's growth rule describes. -/
def leastPow2GeAux : Nat → Nat → Nat → Nat
  | 0, c, _ => c
  | f + 1, c, m => if c ≥ m then c else leastPow2GeAux f (c * 2) m

/-- Smallest power of two `≥ m` in the sequence 2, 4, 8, … -/
def leastPow2Ge (m : Nat) : Nat := leastPow2GeAux 64 2 m

/-- The growth loop of `b6_vector_expand` lands on a power of two `c` with
`len + n < c ≤ 2 * (len + n)`, i.e. the smallest power of two strictly
greater than `len + n`. -/
theorem growLoop_spec (oldcap len n : Nat) :
    ∀ (fuel cap : Nat), len ≤ cap → oldcap ≤ cap → (∃ k, cap = 2 ^ (k + 1)) →
    cap ≤ 2 * (len + n) → len + n ≤ 2 ^ 30 → 2 * (len + n) < 2 ^ fuel * cap →
    ∃ c, growLoop oldcap len n fuel cap = some c ∧ (∃ k, c = 2 ^ (k + 1)) ∧
      len + n < c ∧ c ≤ 2 * (len + n) := by
  intro fuel
  induction fuel with
  | zero =>
    intro cap _ _ _ hle _ hfuel
    simp only [pow_zero, one_mul] at hfuel
    omega
  | succ f ih =>
    intro cap hlen hold hpow hle hsz hfuel
    rw [growLoop]
    have hcapW : cap < W := by
      have : 2 * (len + n) ≤ 2 * 2 ^ 30 := by omega
      simp only [W]; omega
    have hmod : (W + cap - len) % W = cap - len := by
      have h1 : W + cap - len = W + (cap - len) := by omega
      rw [h1, Nat.add_mod_left, Nat.mod_eq_of_lt (by omega)]
    rw [hmod]
    by_cases hcond : n ≥ cap - len
    · rw [if_pos hcond, if_neg (by omega)]
      have hcaple : cap ≤ len + n := by omega
      have hdbl : cap * 2 % W = cap * 2 := by
        apply Nat.mod_eq_of_lt
        have : 2 * (len + n) ≤ 2 * 2 ^ 30 := by omega
        simp only [W]; omega
      rw [hdbl]
      obtain ⟨k, hk⟩ := hpow
      exact ih (cap * 2) (by omega) (by omega)
        ⟨k + 1, by rw [hk]; ring⟩ (by omega) hsz
        (by
          have h2 : 2 ^ (f + 1) * cap = 2 ^ f * (cap * 2) := by ring
          linarith)
    · rw [if_neg hcond]
      exact ⟨cap, rfl, hpow, by omega, hle⟩

/-- `b6_vector_expand` only changes the capacity, to the smallest power of
two strictly greater than `length + n`. -/
theorem vectorExpand_spec {α : Type} (v : Vec α) (n : Nat) (ok : Bool) (v1 : Vec α)
    (hcap : v.capacity = 0 ∨ ∃ k, v.capacity = 2 ^ k)
    (hlen : v.length ≤ v.capacity)
    (hgrow : v.capacity < v.length + n)
    (hsz : v.length + n ≤ 2 ^ 30)
    (hexp : vectorExpand v n ok = some v1) :
    (∃ k, v1.capacity = 2 ^ (k + 1)) ∧ v.length + n < v1.capacity ∧
      v1.capacity ≤ 2 * (v.length + n) ∧ v1.length = v.length ∧
      v1.buffer = v.buffer ∧ v1.itemsize = v.itemsize := by
  unfold vectorExpand at hexp
  rcases hcap with h0 | ⟨k, hk⟩
  · rw [h0] at hexp
    simp only [ne_eq, not_true_eq_false, if_false] at hexp
    have hlen0 : v.length = 0 := by omega
    obtain ⟨c, hgl, hp, hlt, hle⟩ := growLoop_spec 0 v.length n 64 2
      (by omega) (by omega) ⟨0, by norm_num⟩ (by omega) hsz
      (by
        calc 2 * (v.length + n) ≤ 2 * 2 ^ 30 := by omega
          _ < 2 ^ 64 * 2 := by norm_num)
    rw [hgl] at hexp
    dsimp only at hexp
    split at hexp
    · exact absurd hexp (by simp)
    · split at hexp
      · cases hexp
        exact ⟨hp, hlt, hle, rfl, rfl, rfl⟩
      · exact absurd hexp (by simp)
  · have hne : v.capacity ≠ 0 := by rw [hk]; positivity
    simp only [ne_eq, hne, not_false_eq_true, if_true] at hexp
    have hnw : v.capacity * 2 % W = v.capacity * 2 := by
      apply Nat.mod_eq_of_lt; simp only [W]; omega
    rw [hnw] at hexp
    obtain ⟨c, hgl, hp, hlt, hle⟩ := growLoop_spec v.capacity v.length n 64 (v.capacity * 2)
      (by omega) (by omega) ⟨k, by rw [hk]; ring⟩ (by omega) hsz
      (by
        have h1 : (2:ℕ) ^ 64 * 1 ≤ 2 ^ 64 * (v.capacity * 2) := by
          apply Nat.mul_le_mul_left
          omega
        have h2 : 2 * (v.length + n) < 2 ^ 64 * 1 := by
          calc 2 * (v.length + n) ≤ 2 * 2 ^ 30 := by omega
            _ < 2 ^ 64 * 1 := by norm_num
        linarith)
    rw [hgl] at hexp
    dsimp only at hexp
    split at hexp
    · exact absurd hexp (by simp)
    · split at hexp
      · cases hexp
        exact ⟨hp, hlt, hle, rfl, rfl, rfl⟩
      · exact absurd hexp (by simp)


/-- Claim C3 (amended): when `length + n > capacity` and the old capacity is
a power of two or zero, a successful `__b6_vector_add` leaves the capacity
equal to the smallest power of two STRICTLY greater than `length + n`
(characterised as: a power of two `c` with `length + n < c ≤ 2*(length+n)`),
not the smallest power of two `≥ length + n` as the claim states. -/
theorem vector_add_growth {α : Type} (v : Vec α) (index n : Nat) (ok : Bool)
    (hcap : v.capacity = 0 ∨ ∃ k, v.capacity = 2 ^ k)
    (hlen : v.length ≤ v.capacity)
    (hgrow : v.capacity < v.length + n)
    (hsz : v.length + n ≤ 2 ^ 30)
    (hsucc : (vectorAdd v index n ok).1.isSome) :
    (∃ k, (vectorAdd v index n ok).2.capacity = 2 ^ (k + 1)) ∧
      v.length + n < (vectorAdd v index n ok).2.capacity ∧
      (vectorAdd v index n ok).2.capacity ≤ 2 * (v.length + n) := by
  have hn : n ≠ 0 := by omega
  revert hsucc
  unfold vectorAdd
  dsimp only
  generalize (if index > v.length then v.length else index) = j
  by_cases h1 : v.itemsize * j > W - 1
  · rw [if_pos h1]
    intro h
    exact absurd h (by simp)
  · rw [if_neg h1, if_neg hn]
    by_cases h2 : v.itemsize * n > W - 1
    · rw [if_pos h2]
      intro h
      exact absurd h (by simp)
    · rw [if_neg h2]
      have hm : (v.length + n) % W = v.length + n := by
        apply Nat.mod_eq_of_lt; simp only [W]; omega
      rw [hm, if_neg (by omega), if_pos (by omega)]
      rcases hre : vectorExpand v n ok with _ | v1
      · dsimp only
        intro h
        exact absurd h (by simp)
      · dsimp only
        intro _
        obtain ⟨hp, hlt, hle, _, _, _⟩ := vectorExpand_spec v n ok v1 hcap hlen hgrow hsz hre
        exact ⟨hp, hlt, hle⟩


/-- Claim C10: whenever `__b6_vector_add` returns `NULL` (overflow check or
allocation failure), the vector is exactly as before the call: length,
capacity and buffer contents are untouched. -/
theorem vector_add_fail_atomic {α : Type} (v : Vec α) (index n : Nat) (ok : Bool)
    (h : (vectorAdd v index n ok).1 = none) :
    (vectorAdd v index n ok).2 = v := by
  revert h
  unfold vectorAdd
  dsimp only
  generalize (if index > v.length then v.length else index) = j
  by_cases h1 : v.itemsize * j > W - 1
  · rw [if_pos h1]
    intro _
    rfl
  · rw [if_neg h1]
    by_cases hn : n = 0
    · rw [if_pos hn]
      intro h
      exact absurd h (by simp)
    · rw [if_neg hn]
      by_cases h2 : v.itemsize * n > W - 1
      · rw [if_pos h2]
        intro _
        rfl
      · rw [if_neg h2]
        by_cases h3 : (v.length + n) % W < v.length
        · rw [if_pos h3]
          intro _
          rfl
        · rw [if_neg h3]
          rcases hre : (if (v.length + n) % W > v.capacity then vectorExpand v n ok else some v)
            with _ | v1
          · dsimp only
            intro _
            rfl
          · dsimp only
            intro h
            exact absurd h (by simp)


/-- Witness for the claim C10 theorem at a concrete input: an empty vector,
`add(0, 1)` with a failing allocator. -/
theorem vector_add_fail_atomic_witness :
    (vectorAdd vC10 0 1 false).1 = none ∧ (vectorAdd vC10 0 1 false).2 = vC10 :=
  ⟨by decide, vector_add_fail_atomic vC10 0 1 false (by decide)⟩


/-- Claim C2 (code bug): on the vector `[10,20,30]` (`itemsize = 1`,
capacity 4), `add(0,1)` succeeds and the subsequent `del(0,1)` restores the
length but leaves contents `[10,10,10]`, not the original `[10,20,30]`:
`__b6_vector_del` issues `move(ptr + d, ptr, m)` — the same upward move as
`__b6_vector_add` — instead of moving the tail downward. -/
theorem vector_add_del_corrupts :
    (vectorAdd vBug 0 1 true).1.isSome ∧
    (vectorDel (vectorAdd vBug 0 1 true).2 0 1).1 = 1 ∧
    (vectorDel (vectorAdd vBug 0 1 true).2 0 1).2.length = vBug.length ∧
    contents (vectorDel (vectorAdd vBug 0 1 true).2 0 1).2 = [10, 10, 10] ∧
    contents vBug = [10, 20, 30] := by decide


/-- Claim C3 (counterexample): on a vector with `itemsize = 1`,
`capacity = 2`, `length = 2`, a successful `add(2, 2)` (so `length + n = 4`,
already a power of two) leaves capacity 8, not the claimed smallest power
of two `≥ 4`, which is 4. -/
theorem vector_growth_not_tight :
    (vectorAdd vC3 2 2 true).1.isSome ∧ vC3.capacity < vC3.length + 2 ∧
    (vectorAdd vC3 2 2 true).2.capacity = 8 ∧ leastPow2Ge (vC3.length + 2) = 4 := by decide


/-- Witness for the claim C3 (amended) theorem at a concrete input. -/
theorem vector_add_growth_witness :
    (∃ k, (vectorAdd vC3 2 2 true).2.capacity = 2 ^ (k + 1)) ∧
      vC3.length + 2 < (vectorAdd vC3 2 2 true).2.capacity ∧
      (vectorAdd vC3 2 2 true).2.capacity ≤ 2 * (vC3.length + 2) :=
  vector_add_growth vC3 2 2 true (Or.inr ⟨1, rfl⟩) (by decide) (by decide) (by decide) (by decide)


end B6Vec
namespace B6Tree

/-! Shallow embedding of the balanced-tree core of `src/refs.c`.  Nodes are
identifiers into a heap `Nat → TRef`; ids 0, 1, 2 are the three sentinels
embedded in `struct b6_tree` (`head`, `tail`, `root`), user nodes use ids
from 3 on.  `enum { B6_NEXT, B6_PREV }` gives `B6_NEXT = 0`, `B6_PREV = 1`. -/

def NEXT : Nat := 0
def PREV : Nat := 1
def HEAD : Nat := 0
def TAIL : Nat := 1
def ROOT : Nat := 2

/-- `b6_sign_of` (include/b6/utils.h). -/
def signOf (x : Int) : Int := if x < 0 then -1 else if 0 < x then 1 else 0

/-- Arithmetic right shift of a C `int` by one bit (sign preserving):
floor division by 2. -/
def sar1 (x : Int) : Int := Int.fdiv x 2

/-- Bitwise AND of two C `int`s through their 32-bit two's-complement
representations. -/
def intAnd (a b : Int) : Int :=
  let w : Nat := 2 ^ 32
  let r := Nat.land ((a % (w : Int)).toNat) ((b % (w : Int)).toNat)
  if r < w / 2 then (r : Int) else (r : Int) - (w : Int)

/-- `to_direction` (src/refs.c): `(1 - weight) >> 1`; maps -1 to `B6_PREV`
and 1 to `B6_NEXT`. -/
def toDirection (w : Int) : Nat := (sar1 (1 - w)).toNat

/-- `to_weight` (src/refs.c): `(-direction << 1) + 1`. -/
def toWeight (d : Nat) : Int := -(d : Int) * 2 + 1

/-- `struct b6_tref`: two child links indexed by direction, parent link,
direction under the parent, balance byte. -/
structure TRef where
  next : Option Nat
  prev : Option Nat
  top : Option Nat
  dir : Nat
  balance : Int
deriving DecidableEq

/-- `ref->ref[d]`. -/
def TRef.child (t : TRef) (d : Nat) : Option Nat :=
  if d = 0 then t.next else t.prev

/-- `ref->ref[d] = c`. -/
def TRef.setChild (t : TRef) (d : Nat) (c : Option Nat) : TRef :=
  if d = 0 then { t with next := c } else { t with prev := c }

/-- The heap of tree references. -/
def Heap : Type := Nat → TRef

/-- Store to one node of the heap. -/
def upd (s : Heap) (i : Nat) (f : TRef → TRef) : Heap :=
  fun j => if j = i then f (s j) else s j

/-- `has_child` (src/refs.c). -/
def hasChild (s : Heap) (i d : Nat) : Bool := ((s i).child d).isSome

/-- `rotate` (src/refs.c), translated write for write; reads always go to
the current heap, exactly as the sequential C statements do.  A missing
`r->ref[opp]` child (a null dereference in C) leaves the heap unchanged. -/
def rotate (s : Heap) (r dir opp : Nat) : Heap :=
  match (s r).child opp with
  | none => s
  | some p =>
    let q? := (s p).child dir
    let s1 := match q? with
      | some q => upd s q (fun t => { t with top := some r, dir := opp })
      | none => s
    let s2 := upd s1 r (fun t => t.setChild opp q?)
    let s3 := upd s2 p (fun t => { t with top := (s2 r).top })
    let s4 := match (s3 r).top with
      | some rt => upd s3 rt (fun t => t.setChild (s3 r).dir (some p))
      | none => s3
    let s5 := upd s4 r (fun t => { t with top := some p })
    let s6 := upd s5 p (fun t => t.setChild dir (some r))
    let s7 := upd s6 p (fun t => { t with dir := (s6 r).dir })
    upd s7 r (fun t => { t with dir := dir })

/-- `rebalance_avl` (src/refs.c): returns the `change` value (the balance
of the child before rebalancing) and the new heap. -/
def rebalanceAvl (s : Heap) (r : Nat) : Int × Heap :=
  let opp := toDirection (sar1 (s r).balance)
  let dir := opp ^^^ 1
  let weight := toWeight dir
  match (s r).child opp with
  | none => (0, s)
  | some p =>
    let change := (s p).balance
    if change = weight then
      match (s p).child dir with
      | none => (change, s)
      | some q =>
        let qb := (s q).balance
        let s1 := upd s r (fun t => { t with balance := -(intAnd (sar1 (qb - weight)) qb) })
        let s2 := upd s1 p (fun t => { t with balance := -(intAnd (sar1 (qb + weight)) qb) })
        let s3 := upd s2 q (fun t => { t with balance := 0 })
        let s4 := match (s3 r).child opp with
          | some rp => rotate s3 rp opp dir
          | none => s3
        (change, rotate s4 r dir opp)
    else
      let s1 := upd s p (fun t => { t with balance := t.balance + weight })
      let s2 := upd s1 r (fun t => { t with balance := -((s1 p).balance) })
      (change, rotate s2 r dir opp)

/-- The ascent loop of `fix_avl_insert` (src/refs.c). -/
def fixAvlInsertLoop (s : Heap) (ref : Nat) : Nat → Heap
  | 0 => s
  | fuel + 1 =>
    let weight := toWeight (s ref).dir
    match (s ref).top with
    | none => s
    | some r =>
      if r = ROOT then s
      else
        let balance := (s r).balance
        let s' := upd s r (fun t => { t with balance := t.balance + weight })
        if (s' r).balance = 0 then s'
        else if balance ≠ 0 then (rebalanceAvl s' r).2
        else fixAvlInsertLoop s' r fuel

/-- `fix_avl_insert` (src/refs.c): the `add` fix-up of `b6_avl_tree`. -/
def fixAvlInsert (s : Heap) (ref : Nat) (fuel : Nat) : Heap :=
  fixAvlInsertLoop (upd s ref (fun t => { t with balance := 0 })) ref fuel

/-- Result of `b6_tree_search`: the match if any, the final `*top` and
`*dir` out-parameters, and (for instrumentation) the list of nodes the
`examine` callback was invoked on, in call order. -/
structure SearchResult where
  found : Option Nat
  top : Nat
  dir : Nat
  calls : List Nat
deriving DecidableEq

/-- The descent loop of `b6_tree_search` (src/refs.c): a do-while whose
body forces direction `B6_NEXT` at the head sentinel and `B6_PREV` at the
tail sentinel and otherwise consults `cmp`. -/
def treeSearchLoop (s : Heap) (cmp : Nat → Int) : Nat → Nat → Nat → List Nat → SearchResult
  | 0, top, dir, calls => ⟨none, top, dir, calls⟩
  | fuel + 1, top, dir, calls =>
    match (s top).child dir with
    | none => ⟨none, top, dir, calls⟩
    | some ref =>
      if ref = HEAD then
        if hasChild s ref NEXT then treeSearchLoop s cmp fuel ref NEXT calls
        else ⟨none, ref, NEXT, calls⟩
      else if ref = TAIL then
        if hasChild s ref PREV then treeSearchLoop s cmp fuel ref PREV calls
        else ⟨none, ref, PREV, calls⟩
      else
        let result := cmp ref
        if result = 0 then ⟨some ref, top, dir, calls ++ [ref]⟩
        else
          let dir' := toDirection (-result)
          if hasChild s ref dir' then treeSearchLoop s cmp fuel ref dir' (calls ++ [ref])
          else ⟨none, ref, dir', calls ++ [ref]⟩

/-- `b6_tree_search` (src/refs.c): starts at the root sentinel with
direction `B6_PREV`. -/
def treeSearch (s : Heap) (cmp : Nat → Int) (fuel : Nat) : SearchResult :=
  treeSearchLoop s cmp fuel ROOT PREV []

/-- `b6_tree_insert` (src/refs.c) with the AVL discipline
(`tree->ops->add = fix_avl_insert`). -/
def treeInsert (s : Heap) (top dir ref : Nat) (fuel : Nat) : Heap :=
  let opp := dir ^^^ 1
  let s1 := upd s ref (fun t => { t with top := some top })
  let s2 := upd s1 ref (fun t => t.setChild dir none)
  let s3 := upd s2 ref (fun t => t.setChild opp none)
  let s4 := upd s3 ref (fun t => { t with dir := dir })
  let s5 := upd s4 top (fun t => t.setChild dir (some ref))
  fixAvlInsert s5 ref fuel

/-- `b6_tree_add` (include/b6/tree.h): search with the tree's comparator;
return an existing match unchanged, otherwise insert. -/
def treeAdd (s : Heap) (cmp : Nat → Int) (ref : Nat) (fuel : Nat) : Nat × Heap :=
  let sr := treeSearch s cmp fuel
  match sr.found with
  | some tmp => (tmp, s)
  | none => (ref, treeInsert s sr.top sr.dir ref fuel)

/-- `b6_tree_initialize` (src/refs.c). -/
def treeInit (s : Heap) : Heap :=
  let s1 := upd s HEAD (fun _ =>
    { next := some TAIL, prev := none, top := some ROOT, dir := PREV, balance := toWeight NEXT })
  let s2 := upd s1 TAIL (fun _ =>
    { next := none, prev := none, top := some HEAD, dir := NEXT, balance := 0 })
  upd s2 ROOT (fun _ =>
    { next := none, prev := some HEAD, top := none, dir := 0, balance := 0 })

/-- The descent part of `b6_tree_walk` (src/refs.c): go to the extreme in
direction `opp` of the subtree. -/
def treeWalkDescend (s : Heap) (opp : Nat) : Nat → Nat → Nat
  | 0, ref => ref
  | fuel + 1, ref =>
    match (s ref).child opp with
    | none => ref
    | some c => treeWalkDescend s opp fuel c

/-- The ascent part of `b6_tree_walk` (src/refs.c): climb while the node
is its parent's child in direction `dir`, then one more hop. -/
def treeWalkAscend (s : Heap) (dir : Nat) : Nat → Nat → Option Nat
  | 0, _ => none
  | fuel + 1, ref =>
    if (s ref).dir = dir ∧ ref ≠ ROOT then
      match (s ref).top with
      | none => none
      | some t => treeWalkAscend s dir fuel t
    else (s ref).top

/-- `b6_tree_walk` (src/refs.c). -/
def treeWalk (s : Heap) (ref dir : Nat) (fuel : Nat) : Option Nat :=
  match (s ref).child dir with
  | some c => some (treeWalkDescend s (dir ^^^ 1) fuel c)
  | none => treeWalkAscend s dir fuel ref

/-- Iterated `b6_tree_walk` in direction `dir`, collecting the visited
nodes until the walk leaves the tree or reaches the stop sentinel. -/
def walkChain (s : Heap) (dir stop wf : Nat) : Nat → Nat → List Nat
  | 0, _ => []
  | fuel + 1, ref =>
    match treeWalk s ref dir wf with
    | none => []
    | some nxt => if nxt = stop then [] else nxt :: walkChain s dir stop wf fuel nxt

/-- `verify_avl` (src/refs.c): height of the subtree, or a negative value
if some node violates the AVL height invariant. -/
def verifyAvl (s : Heap) : Nat → Nat → Int
  | 0, _ => -1
  | fuel + 1, ref =>
    let h1 := match (s ref).prev with
      | some c => verifyAvl s fuel c
      | none => 0
    if h1 < 0 then h1
    else
      let h2 := match (s ref).next with
        | some c => verifyAvl s fuel c
        | none => 0
      if h2 < 0 then h2
      else if h1 > h2 then (if h1 - h2 > 1 then -1 else 1 + h1)
      else (if h2 - h1 > 1 then -1 else 1 + h2)

/-- `b6_tree_check` (include/b6/tree.h) for the AVL discipline: audit the
subtree hanging from `root.ref[B6_PREV]`. -/
def treeCheck (s : Heap) (fuel : Nat) : Int :=
  match (s ROOT).prev with
  | some r => verifyAvl s fuel r
  | none => -1

/-- All-zero initial heap. -/
def heap0 : Heap := fun _ => { next := none, prev := none, top := none, dir := 0, balance := 0 }

/-- Keys 10, 20, 30 on the user nodes 3, 4, 5 of the C1 scenario. -/
def keys123 : Nat → Int := fun i => if i = 3 then 10 else if i = 4 then 20 else 30

/-- Insert a node through `b6_tree_add` under the numeric comparator
`examine ref = sign(key ref - key new)`. -/
def addKey (s : Heap) (ref : Nat) (fuel : Nat) : Nat × Heap :=
  treeAdd s (fun node => signOf (keys123 node - keys123 ref)) ref fuel

/-- Tree state after inserting key 10 into a fresh AVL tree. -/
def treeS1 : Heap := (addKey (treeInit heap0) 3 20).2

/-- Tree state after inserting keys 10, 20. -/
def treeS2 : Heap := (addKey treeS1 4 20).2

/-- Tree state after inserting keys 10, 20, 30. -/
def treeS3 : Heap := (addKey treeS2 5 20).2

end B6Tree
namespace B6Tree

/-- Claim C1 (counterexample): after inserting 10, 20, 30 into a fresh AVL
tree via `b6_tree_add`, the node with key 20 (id 4) is NOT the user root:
it is a childless leaf whose parent is the node with key 30, and the
root sentinel's `B6_PREV` child is the node with key 10 (id 3). -/
theorem avl_20_not_root :
    (treeS3 4).top = some 5 ∧ (treeS3 4).prev = none ∧ (treeS3 4).next = none ∧
    (treeS3 ROOT).prev = some 3 ∧ keys123 3 = 10 ∧ keys123 4 = 20 := by decide

/-- Claim C1 (amended): inserting 10, 20, 30 into a fresh AVL tree, the
insertion of 30 triggers a rotation (node 10's `B6_NEXT` child changes from
the tail sentinel to node 30), after which node 10 is the user root with the
head sentinel as `B6_PREV` child and 30 as `B6_NEXT` child, 30 has 20 as
`B6_PREV` child and the tail sentinel as `B6_NEXT` child; the in-order walk
from head yields 10, 20, 30 and `b6_tree_check` reports no AVL violation. -/
theorem avl_10_20_30_shape :
    (treeS2 3).next = some TAIL ∧
    (treeS3 ROOT).prev = some 3 ∧ (treeS3 3).top = some ROOT ∧
    (treeS3 3).prev = some HEAD ∧ (treeS3 3).next = some 5 ∧
    (treeS3 5).prev = some 4 ∧ (treeS3 5).next = some TAIL ∧
    (treeS3 4).prev = none ∧ (treeS3 4).next = none ∧
    (walkChain treeS3 NEXT TAIL 20 20 HEAD).map keys123 = [10, 20, 30] ∧
    0 ≤ treeCheck treeS3 20 := by decide

/-- Claim C4 (counterexample): already after inserting a single node (key
10) into a fresh AVL tree, the rebalancing rotations promote the new node
above the head sentinel: `root.ref[B6_PREV]` is node 3, not `head`, and
`head.ref[B6_NEXT]` is `NULL`, not the user's root. -/
theorem root_prev_not_head_after_insert :
    (treeS1 ROOT).prev = some 3 ∧ (treeS1 ROOT).prev ≠ some HEAD ∧
    (treeS1 HEAD).next = none ∧ (treeS1 3).top = some ROOT := by decide

/-- Claim C4 (amended): `b6_tree_initialize` establishes `root.ref[B6_PREV]
= head` and `head.ref[B6_NEXT] = tail`; the sentinels take part in
rebalancing afterwards, so insertions need not preserve this. -/
theorem tree_init_sentinels (s : Heap) :
    ((treeInit s) ROOT).prev = some HEAD ∧ ((treeInit s) HEAD).next = some TAIL ∧
    ((treeInit s) HEAD).top = some ROOT ∧ ((treeInit s) TAIL).top = some HEAD :=
  ⟨rfl, rfl, rfl, rfl⟩

theorem treeSearchLoop_calls_no_sentinel (s : Heap) (cmp : Nat → Int) :
    ∀ (fuel top dir : Nat) (calls : List Nat),
      (∀ x ∈ calls, x ≠ HEAD ∧ x ≠ TAIL) →
      ∀ x ∈ (treeSearchLoop s cmp fuel top dir calls).calls, x ≠ HEAD ∧ x ≠ TAIL := by
  intro fuel
  induction fuel with
  | zero =>
    intro top dir calls h
    simpa [treeSearchLoop] using h
  | succ f ih =>
    intro top dir calls h
    rw [treeSearchLoop]
    cases hc : (s top).child dir with
    | none => exact h
    | some ref =>
      dsimp only
      by_cases h1 : ref = HEAD
      · rw [if_pos h1]
        by_cases hch : hasChild s ref NEXT
        · rw [if_pos hch]
          exact ih ref NEXT calls h
        · rw [if_neg hch]
          exact h
      · rw [if_neg h1]
        by_cases h2 : ref = TAIL
        · rw [if_pos h2]
          by_cases hch : hasChild s ref PREV
          · rw [if_pos hch]
            exact ih ref PREV calls h
          · rw [if_neg hch]
            exact h
        · rw [if_neg h2]
          have hext : ∀ x ∈ calls ++ [ref], x ≠ HEAD ∧ x ≠ TAIL := by
            intro x hx
            rcases List.mem_append.1 hx with hx | hx
            · exact h x hx
            · rcases List.mem_singleton.1 hx with rfl
              exact ⟨h1, h2⟩
          by_cases h0 : cmp ref = 0
          · rw [if_pos h0]
            exact hext
          · rw [if_neg h0]
            by_cases hch : hasChild s ref (toDirection (-cmp ref))
            · rw [if_pos hch]
              exact ih ref (toDirection (-cmp ref)) (calls ++ [ref]) hext
            · rw [if_neg hch]
              exact hext

end B6Tree
namespace B6Deque

/-! Shallow embedding of the singly-linked deque (include/b6/deque.h).
References are identifiers; id 0 is `&deque->head`, id 1 is
`&deque->tail`, the `ref` forward link of each `struct b6_sref` lives in
`nextOf`, and `last` is the cached pointer `deque->last`. -/

def QHEAD : Nat := 0
def QTAIL : Nat := 1

/-- `struct b6_deque`. -/
structure DState where
  nextOf : Nat → Option Nat
  last : Nat

/-- `b6_deque_initialize`: `head.ref = &tail`, `tail.ref = NULL`,
`last = &head`; all other references keep whatever they held. -/
def dequeInit (h : Nat → Option Nat) : DState :=
  { nextOf := fun i => if i = QHEAD then some QTAIL else if i = QTAIL then none else h i,
    last := QHEAD }

/-- `b6_deque_add_after`: read `next = prev->ref`, update the `last` cache
when inserting after it, then `sref->ref = next; prev->ref = sref`. -/
def addAfter (d : DState) (prev sref : Nat) : DState :=
  let next := d.nextOf prev
  { nextOf := fun i => if i = prev then some sref else if i = sref then next else d.nextOf i,
    last := if prev = d.last then sref else d.last }

/-- `b6_deque_del_after`: read `curr = prev->ref`, update the `last` cache
when removing it, then `prev->ref = curr->ref`.  A `NULL` `curr` (a crash
of the C code) leaves the state unchanged. -/
def delAfter (d : DState) (prev : Nat) : Option Nat × DState :=
  match d.nextOf prev with
  | none => (none, d)
  | some curr =>
    (some curr,
      { nextOf := fun i => if i = prev then d.nextOf curr else d.nextOf i,
        last := if curr = d.last then prev else d.last })

/-- The mutating deque operations.  `b6_deque_add`, `b6_deque_del` and
`b6_deque_del_last` of the header are `add_after`/`del_after` at the
predecessor found by the read-only backward walk, so they are instances of
`addAfter`/`delAfter` with an arbitrary `prev`. -/
inductive DOp where
  | addAfter (prev sref : Nat)
  | delAfter (prev : Nat)
  | addFirst (sref : Nat)
  | addLast (sref : Nat)
  | delFirst

/-- One operation. `b6_deque_add_first` inserts after `&deque->head`,
`b6_deque_add_last` after `deque->last`, `b6_deque_del_first` removes
after `&deque->head` — exactly as in the header. -/
def applyOp (d : DState) : DOp → DState
  | .addAfter p r => addAfter d p r
  | .delAfter p => (delAfter d p).2
  | .addFirst r => addAfter d QHEAD r
  | .addLast r => addAfter d d.last r
  | .delFirst => (delAfter d QHEAD).2

/-- The preconditions of the operations: `add_after` requires
`prev->ref != NULL` and a fresh reference (one that is not already linked
in the deque — in particular not `prev` and not the cached `last`);
`del_after` requires `prev->ref != NULL` and that the removed reference is
not the tail sentinel (`b6_precond(curr != &deque->tail)`). -/
def okOp (d : DState) : DOp → Bool
  | .addAfter p r => (d.nextOf p).isSome && r ≠ p && r ≠ d.last
  | .delAfter p => match d.nextOf p with
    | none => false
    | some curr => curr ≠ QTAIL
  | .addFirst r => (d.nextOf QHEAD).isSome && r ≠ QHEAD && r ≠ d.last
  | .addLast r => r ≠ d.last
  | .delFirst => match d.nextOf QHEAD with
    | none => false
    | some curr => curr ≠ QTAIL

/-- A sequence of operations each respecting its preconditions. -/
def okSeq : DState → List DOp → Bool
  | _, [] => true
  | d, op :: rest => okOp d op && okSeq (applyOp d op) rest

/-- Run a sequence of operations. -/
def applyOps : DState → List DOp → DState
  | d, [] => d
  | d, op :: rest => applyOps (applyOp d op) rest

/-- The `last` cache invariant: `deque->last->ref == &deque->tail`. -/
def lastInv (d : DState) : Prop := d.nextOf d.last = some QTAIL

theorem lastInv_addAfter (d : DState) (p r : Nat) (hinv : lastInv d)
    (hrp : r ≠ p) (hrl : r ≠ d.last) : lastInv (addAfter d p r) := by
  simp only [lastInv, addAfter] at hinv ⊢
  by_cases hpl : p = d.last
  · simp only [if_pos hpl]
    rw [if_neg hrp]
    show d.nextOf p = some QTAIL
    rw [hpl]
    exact hinv
  · simp only [if_neg hpl]
    rw [if_neg (fun h => hpl h.symm), if_neg (fun h => hrl h.symm)]
    exact hinv

theorem lastInv_delAfter (d : DState) (p curr : Nat) (hinv : lastInv d)
    (hcurr : d.nextOf p = some curr) (hct : curr ≠ QTAIL) :
    lastInv (delAfter d p).2 := by
  simp only [lastInv, delAfter, hcurr] at hinv ⊢
  by_cases hcl : curr = d.last
  · simp only [if_pos hcl]
    show d.nextOf curr = some QTAIL
    rw [hcl]
    exact hinv
  · simp only [if_neg hcl]
    by_cases hlp : d.last = p
    · exfalso
      rw [← hlp, hinv] at hcurr
      exact hct (Option.some.inj hcurr).symm
    · rw [if_neg hlp]
      exact hinv

theorem lastInv_applyOp (d : DState) (op : DOp) (hinv : lastInv d)
    (hok : okOp d op) : lastInv (applyOp d op) := by
  cases op with
  | addAfter p r =>
    simp only [okOp, Bool.and_eq_true, decide_eq_true_eq] at hok
    exact lastInv_addAfter d p r hinv hok.1.2 hok.2
  | delAfter p =>
    simp only [okOp] at hok
    cases hc : d.nextOf p with
    | none => rw [hc] at hok; cases hok
    | some curr =>
      rw [hc] at hok
      simp only [decide_eq_true_eq] at hok
      exact lastInv_delAfter d p curr hinv hc hok
  | addFirst r =>
    simp only [okOp, Bool.and_eq_true, decide_eq_true_eq] at hok
    exact lastInv_addAfter d QHEAD r hinv hok.1.2 hok.2
  | addLast r =>
    simp only [okOp, decide_eq_true_eq] at hok
    exact lastInv_addAfter d d.last r hinv hok hok
  | delFirst =>
    simp only [okOp] at hok
    cases hc : d.nextOf QHEAD with
    | none => rw [hc] at hok; cases hok
    | some curr =>
      rw [hc] at hok
      simp only [decide_eq_true_eq] at hok
      exact lastInv_delAfter d QHEAD curr hinv hc hok

theorem lastInv_applyOps (ops : List DOp) :
    ∀ d : DState, lastInv d → okSeq d ops = true → lastInv (applyOps d ops) := by
  induction ops with
  | nil => intro d h _; exact h
  | cons op rest ih =>
    intro d h hok
    simp only [okSeq, Bool.and_eq_true] at hok
    exact ih (applyOp d op) (lastInv_applyOp d op h hok.1) hok.2

/-- Claim C9: starting from `b6_deque_initialize`, after every sequence of
deque operations that respects their preconditions, the cached pointer
`deque->last` points to the reference whose forward link is the tail
sentinel: `last->ref == &deque->tail`. -/
theorem deque_last_points_to_tail (h : Nat → Option Nat) (ops : List DOp)
    (hok : okSeq (dequeInit h) ops = true) :
    (applyOps (dequeInit h) ops).nextOf (applyOps (dequeInit h) ops).last = some QTAIL :=
  lastInv_applyOps ops (dequeInit h) rfl hok

/-- Witness for the claim C9 theorem: push one element at the back, one at
the front, pop the front, on a freshly initialized deque. -/
theorem deque_last_points_to_tail_witness :
    okSeq (dequeInit (fun _ => none)) [DOp.addLast 5, DOp.addFirst 7, DOp.delFirst] = true ∧
    (applyOps (dequeInit (fun _ => none)) [DOp.addLast 5, DOp.addFirst 7, DOp.delFirst]).nextOf
      (applyOps (dequeInit (fun _ => none)) [DOp.addLast 5, DOp.addFirst 7, DOp.delFirst]).last =
      some QTAIL :=
  ⟨by decide, deque_last_points_to_tail (fun _ => none) [DOp.addLast 5, DOp.addFirst 7, DOp.delFirst]
    (by decide)⟩

end B6Deque
namespace B6Splay

/-! Shallow embedding of the top-down splay tree (src/splay.c).  Double
references (`struct b6_dref`) are identifiers into a heap `Nat → DRef`;
id 0 is `&splay->head`, id 1 is `&splay->tail`, id 2 stands for the
stack-local `tmp` reference of `do_splay`; user nodes use ids from 3 on. -/

def SNEXT : Nat := 0
def SPREV : Nat := 1
def SHEAD : Nat := 0
def STAIL : Nat := 1
def TMP : Nat := 2

/-- `struct b6_dref`. -/
structure DRef where
  next : Option Nat
  prev : Option Nat
deriving DecidableEq

/-- `ref->ref[d]`. -/
def DRef.child (t : DRef) (d : Nat) : Option Nat := if d = 0 then t.next else t.prev

/-- `ref->ref[d] = c`. -/
def DRef.setChild (t : DRef) (d : Nat) (c : Option Nat) : DRef :=
  if d = 0 then { t with next := c } else { t with prev := c }

/-- The heap of double references. -/
def DHeap : Type := Nat → DRef

/-- Store to one node of the heap. -/
def updD (s : DHeap) (i : Nat) (f : DRef → DRef) : DHeap :=
  fun j => if j = i then f (s j) else s j

/-- `splay_cmp` (src/splay.c): forced result -1 at the head sentinel and
+1 at the tail sentinel without consulting the user function; the second
component records the node `cmp` was invoked on, if it was. -/
def splayCmp (cmp : Nat → Int) (ref : Nat) : Int × Option Nat :=
  if ref = SHEAD then (-1, none)
  else if ref = STAIL then (1, none)
  else (cmp ref, some ref)

/-- State leaving the `do_splay` loop: comparison result, heap, root and
the two reassembly pointers `ref[B6_PREV]`, `ref[B6_NEXT]`, plus the list
of nodes the user examine function was invoked on. -/
structure LoopOut where
  res : Int
  heap : DHeap
  root : Nat
  refP : Nat
  refN : Nat
  calls : List Nat

/-- The while loop of `do_splay` (src/splay.c).  The loop condition (one
`splay_cmp`) costs no fuel; the fuel bounds the number of body
executions, and running out models the C loop not terminating.  The final
link step of the body is written out in both the zig-zig (after the
rotation of `swp`) and the plain descent path, exactly as the single
fall-through statement sequence of the source executes. -/
def doSplayLoop (cmp : Nat → Int) :
    Nat → DHeap → Nat → Nat → Nat → List Nat → LoopOut
  | fuel, h, root, refP, refN, calls =>
    let c1 := splayCmp cmp root
    let calls1 := calls ++ c1.2.toList
    if c1.1 = 0 then ⟨c1.1, h, root, refP, refN, calls1⟩
    else
      match fuel with
      | 0 => ⟨c1.1, h, root, refP, refN, calls1⟩
      | fuel + 1 =>
        let opp := B6Tree.toDirection c1.1
        let dir := opp ^^^ 1
        match (h root).child dir with
        | none => ⟨c1.1, h, root, refP, refN, calls1⟩
        | some ch =>
          let c2 := splayCmp cmp ch
          let calls2 := calls1 ++ c2.2.toList
          if c1.1 = c2.1 then
            let h1 := updD h root (fun t => t.setChild dir ((h ch).child opp))
            let h2 := updD h1 ch (fun t => t.setChild opp (some root))
            match (h2 ch).child dir with
            | none => ⟨c1.1, h2, ch, refP, refN, calls2⟩
            | some _ =>
              let rp := if opp = SPREV then refP else refN
              let h3 := updD h2 rp (fun t => t.setChild dir (some ch))
              let refP' := if opp = SPREV then ch else refP
              let refN' := if opp = SPREV then refN else ch
              match (h3 ch).child dir with
              | none => ⟨c1.1, h3, ch, refP', refN', calls2⟩
              | some nr => doSplayLoop cmp fuel h3 nr refP' refN' calls2
          else
            let rp := if opp = SPREV then refP else refN
            let h3 := updD h rp (fun t => t.setChild dir (some root))
            let refP' := if opp = SPREV then root else refP
            let refN' := if opp = SPREV then refN else root
            match (h3 root).child dir with
            | none => ⟨c1.1, h3, root, refP', refN', calls2⟩
            | some nr => doSplayLoop cmp fuel h3 nr refP' refN' calls2

/-- Result of `do_splay`. -/
structure SplayOut where
  res : Int
  heap : DHeap
  root : Nat
  calls : List Nat

/-- `do_splay` (src/splay.c): initialize the stack `tmp` reference, run
the loop, then reassemble the three pieces; each reassembly statement
reads the heap produced by the previous one. -/
def doSplay (cmp : Nat → Int) (h : DHeap) (root : Nat) (fuel : Nat) : SplayOut :=
  let h0 := updD h TMP (fun _ => ⟨none, none⟩)
  let lo := doSplayLoop cmp fuel h0 root TMP TMP []
  let h1 := updD lo.heap lo.refP (fun t => t.setChild SNEXT ((lo.heap lo.root).child SPREV))
  let h2 := updD h1 lo.refN (fun t => t.setChild SPREV ((h1 lo.root).child SNEXT))
  let h3 := updD h2 lo.root (fun t => t.setChild SPREV ((h2 TMP).child SNEXT))
  let h4 := updD h3 lo.root (fun t => t.setChild SNEXT ((h3 TMP).child SPREV))
  ⟨lo.res, h4, lo.root, lo.calls⟩

/-- `b6_splay_initialize` (src/splay.c): the splay state is the heap plus
the root pointer, which starts at the head sentinel. -/
def splayInit (h : DHeap) : DHeap × Nat :=
  let h1 := updD h SHEAD (fun t => { t with prev := none })
  let h2 := updD h1 SHEAD (fun t => { t with next := some STAIL })
  let h3 := updD h2 STAIL (fun t => { t with prev := none })
  let h4 := updD h3 STAIL (fun t => { t with next := none })
  (h4, SHEAD)

/-- `b6_splay_add` (src/splay.c): splay with the tree's comparator and the
new node as argument; on a match return the splayed root unchanged,
otherwise attach the new node as the new root.  Result: returned
reference, heap, root. -/
def splayAdd (comp : Nat → Nat → Int) (h : DHeap) (root ref : Nat) (fuel : Nat) :
    Nat × DHeap × Nat :=
  let so := doSplay (fun n => comp n ref) h root fuel
  if so.res = 0 then (so.root, so.heap, so.root)
  else
    let opp := B6Tree.toDirection so.res
    let dir := opp ^^^ 1
    let h1 := updD so.heap ref (fun t => t.setChild dir ((so.heap so.root).child dir))
    let h2 := updD h1 ref (fun t => t.setChild opp (some so.root))
    let h3 := updD h2 so.root (fun t => t.setChild dir none)
    (ref, h3, ref)

theorem splayCmp_call_not_sentinel (cmp : Nat → Int) (r x : Nat)
    (h : (splayCmp cmp r).2 = some x) : x ≠ SHEAD ∧ x ≠ STAIL := by
  unfold splayCmp at h
  by_cases h1 : r = SHEAD
  · rw [if_pos h1] at h
    cases h
  · rw [if_neg h1] at h
    by_cases h2 : r = STAIL
    · rw [if_pos h2] at h
      cases h
    · rw [if_neg h2] at h
      cases h
      exact ⟨h1, h2⟩

theorem doSplayLoop_calls_no_sentinel (cmp : Nat → Int) :
    ∀ (fuel : Nat) (h : DHeap) (root refP refN : Nat) (calls : List Nat),
      (∀ x ∈ calls, x ≠ SHEAD ∧ x ≠ STAIL) →
      ∀ x ∈ (doSplayLoop cmp fuel h root refP refN calls).calls, x ≠ SHEAD ∧ x ≠ STAIL := by
  have hext : ∀ (calls : List Nat) (r : Nat), (∀ x ∈ calls, x ≠ SHEAD ∧ x ≠ STAIL) →
      ∀ x ∈ calls ++ (splayCmp cmp r).2.toList, x ≠ SHEAD ∧ x ≠ STAIL := by
    intro calls r hc x hx
    rcases List.mem_append.1 hx with hx | hx
    · exact hc x hx
    · cases hs : (splayCmp cmp r).2 with
      | none => rw [hs] at hx; cases hx
      | some y =>
        rw [hs] at hx
        rcases List.mem_singleton.1 hx with rfl
        exact splayCmp_call_not_sentinel cmp r x hs
  intro fuel
  induction fuel with
  | zero =>
    intro h root refP refN calls hc
    rw [doSplayLoop]
    split
    · exact hext calls root hc
    · exact hext calls root hc
  | succ f ih =>
    intro h root refP refN calls hc
    rw [doSplayLoop]
    split
    · exact hext calls root hc
    · dsimp only
      cases hch : (h root).child (B6Tree.toDirection (splayCmp cmp root).1 ^^^ 1) with
      | none => exact hext calls root hc
      | some ch =>
        dsimp only
        have hc2 : ∀ x ∈ calls ++ (splayCmp cmp root).2.toList ++ (splayCmp cmp ch).2.toList,
            x ≠ SHEAD ∧ x ≠ STAIL :=
          hext _ ch (hext calls root hc)
        split
        · split
          · exact hc2
          · split
            · exact hc2
            · exact ih _ _ _ _ _ hc2
        · split
          · exact hc2
          · exact ih _ _ _ _ _ hc2

theorem doSplay_calls_no_sentinel (cmp : Nat → Int) (h : DHeap) (root fuel : Nat) :
    ∀ x ∈ (doSplay cmp h root fuel).calls, x ≠ SHEAD ∧ x ≠ STAIL := by
  unfold doSplay
  dsimp only
  exact doSplayLoop_calls_no_sentinel cmp fuel _ root TMP TMP []
    (fun x hx => absurd hx (List.not_mem_nil x))

/-- Claim C7: in `b6_tree_search` the user examine function is never
invoked on the head or tail sentinel (descent is forced to `B6_NEXT` at
head and to `B6_PREV` at tail), and in the splay-tree splaying loop
(`do_splay`, via `splay_cmp`) the user examine function is never invoked
on the splay head or tail sentinel. -/
theorem examine_never_on_sentinels :
    (∀ (s : B6Tree.Heap) (cmp : Nat → Int) (fuel : Nat),
      ∀ x ∈ (B6Tree.treeSearch s cmp fuel).calls, x ≠ B6Tree.HEAD ∧ x ≠ B6Tree.TAIL) ∧
    (∀ (cmp : Nat → Int) (h : DHeap) (root fuel : Nat),
      ∀ x ∈ (doSplay cmp h root fuel).calls, x ≠ SHEAD ∧ x ≠ STAIL) :=
  ⟨fun s cmp fuel => B6Tree.treeSearchLoop_calls_no_sentinel s cmp fuel B6Tree.ROOT
      B6Tree.PREV [] (fun x hx => absurd hx (List.not_mem_nil x)),
   fun cmp h root fuel => doSplay_calls_no_sentinel cmp h root fuel⟩

/-- One-node splay heap: head – node 3 – tail, rooted at 3. -/
def splayWitnessHeap : DHeap := fun i =>
  if i = SHEAD then ⟨some 3, none⟩
  else if i = 3 then ⟨some STAIL, some SHEAD⟩
  else ⟨none, none⟩

/-- Examine function matching node 3. -/
def cmpW : Nat → Int := fun n => if n = 3 then 0 else 1

/-- Witness for the claim C7 theorem: a search through the three-node AVL
tree invokes the examine on node 4, and a splay on the one-node splay tree
invokes it on node 3 — neither is a sentinel. -/
theorem examine_never_on_sentinels_witness :
    (4 ∈ (B6Tree.treeSearch B6Tree.treeS3
        (fun n => B6Tree.signOf (B6Tree.keys123 n - 20)) 20).calls ∧
      (4 : Nat) ≠ B6Tree.HEAD ∧ (4 : Nat) ≠ B6Tree.TAIL) ∧
    (3 ∈ (doSplay cmpW splayWitnessHeap 3 5).calls ∧
      (3 : Nat) ≠ SHEAD ∧ (3 : Nat) ≠ STAIL) :=
  ⟨⟨by decide, examine_never_on_sentinels.1 B6Tree.treeS3
      (fun n => B6Tree.signOf (B6Tree.keys123 n - 20)) 20 4 (by decide)⟩,
   ⟨by decide, examine_never_on_sentinels.2 cmpW splayWitnessHeap 3 5 3 (by decide)⟩⟩

end B6Splay
namespace B6Pool

/-! Shallow embedding of the chunked pool allocator (src/pool.c).  Chunks
are identified by their start address (a `Nat`); slot pointers are
addresses.  The pool's recycle queue is the deque model of `B6Deque`
whose reference ids are the slot addresses (the freed slot's first word
is reused as the `b6_sref`), with ids 0/1 for `&pool->queue.head` and
`&pool->queue.tail` — slot addresses are chunk addresses plus at least
the chunk header, so they never collide with 0/1 in the scenarios.

src/pool.c is written against the macro-style tree API
(`b6_tree_search(tree, ref, top, dir) { ... }`, `b6_tree_add(tree, top,
dir, ref)`, `b6_tree_initialize(tree, ops)`) whose implementation is not
part of src/ (src/refs.c exports a different, function-style API).  The
in-tree search/insert/delete loops are therefore modelled from the spec
as binary-search-tree descent over chunks keyed by start address
(spec §3 Pool, §4.7); the comparison bodies are translated from
src/pool.c itself. -/

/-- Wrap bound of the `unsigned int` chunk counters. -/
def UW : Nat := 2 ^ 32

/-- `sizeof(struct b6_chunk)` on the modelled LP64 layout: one `b6_tref`
(two child pointers, parent pointer, two bytes padded), one `b6_dref`
(two pointers) and four `unsigned int` counters. -/
def hdrSize : Nat := 64

/-- `sizeof(void *)` (= `sizeof(struct b6_sref)`) on the modelled layout. -/
def ptrSize : Nat := 8

/-- Modelled from the spec: the pool's tree of chunks keyed by chunk start
address, as maintained by the macro-style `b6_tree_search`/`b6_tree_add`
loops of src/pool.c whose tree implementation is not under src/.
Balancing only affects the shape, not the contents, so the model keeps a
plain binary search tree. -/
inductive ChunkTree where
  | leaf
  | node (l : ChunkTree) (start : Nat) (r : ChunkTree)
deriving DecidableEq

/-- Modelled from the spec: membership of a chunk in the tree. -/
def chunkMem (c : Nat) : ChunkTree → Bool
  | .leaf => false
  | .node l s r => c = s || chunkMem c l || chunkMem c r

/-- `find_chunk` (src/pool.c): descend `B6_PREV` (toward smaller starts)
when `chunk > ptr`, `B6_NEXT` when `chunk + chunk_size < ptr`, and
otherwise the pointer belongs to this chunk.  The descent itself is
modelled from the spec (see the namespace header); the three-way
comparison is translated from the source. -/
def findChunk (chunkSize : Nat) : ChunkTree → Nat → Option Nat
  | .leaf, _ => none
  | .node l s r, p =>
    if s > p then findChunk chunkSize l p
    else if s + chunkSize < p then findChunk chunkSize r p
    else some s

/-- `initialize_chunk`'s tree insertion (src/pool.c):
`dir = ref < &chunk->tref ? B6_NEXT : B6_PREV`, i.e. plain
insertion by start address (descent modelled from the spec). -/
def treeInsertChunk : ChunkTree → Nat → ChunkTree
  | .leaf, c => .node .leaf c .leaf
  | .node l s r, c =>
    if s < c then .node l s (treeInsertChunk r c) else .node (treeInsertChunk l c) s r

/-- Modelled from the spec: removal of a chunk from the tree
(`finalize_chunk`'s search loop plus `b6_tree_del`). -/
def mergeTrees : ChunkTree → ChunkTree → ChunkTree
  | .leaf, r => r
  | .node ll ls lr, r => .node ll ls (mergeTrees lr r)

/-- Modelled from the spec: BST removal by start address. -/
def treeRemoveChunk : ChunkTree → Nat → ChunkTree
  | .leaf, _ => .leaf
  | .node l s r, c =>
    if c < s then .node (treeRemoveChunk l c) s r
    else if s < c then .node l s (treeRemoveChunk r c)
    else mergeTrees l r

/-- `struct b6_chunk` metadata (src/pool.c): free bytes, live objects,
bump offset of the next free byte, dead flag. -/
structure Chunk where
  free : Nat
  used : Nat
  index : Nat
  flag : Bool
deriving DecidableEq

/-- Store to one chunk's metadata. -/
def updC (f : Nat → Chunk) (i : Nat) (g : Chunk → Chunk) : Nat → Chunk :=
  fun j => if j = i then g (f j) else f j

/-- `struct b6_pool`: `chunkSize` is the usable size (after the
`chunk_size -= sizeof(void*) + sizeof(struct b6_chunk)` of
`b6_pool_initialize`); `supply` is the oracle of addresses the underlying
allocator returns. -/
structure PoolState where
  chunkSize : Nat
  size : Nat
  curr : Option Nat
  freeC : Option Nat
  queue : B6Deque.DState
  list : List Nat
  tree : ChunkTree
  chunks : Nat → Chunk
  supply : List Nat

/-- `b6_deque_empty` (include/b6/deque.h): `first == &deque->tail`. -/
def dequeEmpty (d : B6Deque.DState) : Bool :=
  d.nextOf B6Deque.QHEAD = some B6Deque.QTAIL

/-- `initialize_chunk` (src/pool.c). -/
def initChunk (ps : PoolState) (c : Nat) : PoolState :=
  { ps with
    chunks := updC ps.chunks c (fun _ => ⟨ps.chunkSize, 0, hdrSize, true⟩),
    list := c :: ps.list,
    tree := treeInsertChunk ps.tree c }

/-- `finalize_chunk` (src/pool.c). -/
def finalizeChunk (ps : PoolState) (c : Nat) : PoolState :=
  let ps1 := if ps.curr = some c then { ps with curr := none } else ps
  { ps1 with list := ps1.list.erase c, tree := treeRemoveChunk ps1.tree c }

/-- `allocate_chunk` (src/pool.c): prefer the cached free chunk, else ask
the underlying allocator. -/
def allocateChunk (ps : PoolState) : Option (Nat × PoolState) :=
  match ps.freeC with
  | some c => some (c, { ps with freeC := none })
  | none =>
    match ps.supply with
    | [] => none
    | a :: rest => some (a, { ps with supply := rest })

/-- `release_chunk` (src/pool.c): cache one free chunk, release others. -/
def releaseChunk (ps : PoolState) (c : Nat) : PoolState :=
  if ps.freeC = none then { ps with freeC := some c } else ps

/-- The bump-allocation tail of `b6_pool_get` (src/pool.c):
`used += 1; free -= size; index += size; return chunk + index`. -/
def poolBump (ps : PoolState) (cu : Nat) : Option Nat × PoolState :=
  let ps1 := { ps with chunks := updC ps.chunks cu (fun ch =>
    { ch with used := (ch.used + 1) % UW,
              free := (ch.free + UW - ps.size) % UW,
              index := (ch.index + ps.size) % UW }) }
  (some (cu + (ps1.chunks cu).index), ps1)

/-- `b6_pool_get` (src/pool.c).  The fuel bounds the recycle loop; the
dead-chunk branch returns freed bytes to the chunk and finalizes it when
it is fully drained. -/
def poolGet (ps : PoolState) : Nat → Option Nat × PoolState
  | 0 => (none, ps)
  | fuel + 1 =>
    if !dequeEmpty ps.queue then
      match B6Deque.delAfter ps.queue B6Deque.QHEAD with
      | (none, q') => (none, { ps with queue := q' })
      | (some sref, q') =>
        let ps1 := { ps with queue := q' }
        match findChunk ps1.chunkSize ps1.tree sref with
        | none => (none, ps1)
        | some c =>
          if (ps1.chunks c).flag = false then
            (some sref,
             { ps1 with chunks := updC ps1.chunks c (fun ch =>
                 { ch with used := (ch.used + 1) % UW }) })
          else
            let ps2 := { ps1 with chunks := updC ps1.chunks c (fun ch =>
              { ch with free := (ch.free + ps1.size) % UW }) }
            let ps3 := if (ps2.chunks c).free = ps2.chunkSize then
                releaseChunk (finalizeChunk ps2 c) c
              else ps2
            poolGet ps3 fuel
    else
      let curOk : Option Nat :=
        match ps.curr with
        | none => none
        | some cu => if (ps.chunks cu).index + ps.size > ps.chunkSize then none else some cu
      match curOk with
      | some cu => poolBump ps cu
      | none =>
        match allocateChunk ps with
        | none => (none, ps)
        | some (c, ps1) =>
          let ps2 := { initChunk ps1 c with curr := some c }
          poolBump ps2 c

/-- `b6_pool_put` (src/pool.c): find the owning chunk, push the slot onto
the front of the recycle queue, decrement `used`, set the dead flag when
`used` reaches zero.  A pointer owned by no chunk (a crash in C) leaves
the state unchanged. -/
def poolPut (ps : PoolState) (ptr : Nat) : PoolState :=
  match findChunk ps.chunkSize ps.tree ptr with
  | none => ps
  | some c =>
    let q := B6Deque.addAfter ps.queue B6Deque.QHEAD ptr
    let chunks1 := updC ps.chunks c (fun ch => { ch with used := (ch.used + UW - 1) % UW })
    let chunks2 := updC chunks1 c (fun ch => { ch with flag := ch.used = 0 })
    { ps with queue := q, chunks := chunks2 }

/-- The automatic chunk-size search of `b6_pool_initialize` (src/pool.c):
`for (chunk_size = 4096; chunk_size - sizeof(chunk) - sizeof(void*) <
size; chunk_size *= 2) if (!chunk_size) return -1;`. -/
def chunkAuto (size : Nat) : Nat → Nat → Option Nat
  | 0, _ => none
  | f + 1, cs =>
    if (UW + cs - hdrSize - ptrSize) % UW < size then
      if cs = 0 then none
      else chunkAuto size f (cs * 2 % UW)
    else some cs

/-- `b6_pool_initialize` (src/pool.c): align `size` up to the pointer
size, derive or validate the chunk size, subtract the header and one
pointer of slack, and start with empty queue, list and tree. -/
def poolInit (size chunkSizeArg : Nat) (supply : List Nat) : Option PoolState :=
  let size := ((size + ptrSize - 1) / ptrSize) * ptrSize
  let cs? : Option Nat :=
    if chunkSizeArg = 0 then chunkAuto size 64 4096
    else if chunkSizeArg < ptrSize + hdrSize ∨ chunkSizeArg - ptrSize - hdrSize < size then none
    else some chunkSizeArg
  match cs? with
  | none => none
  | some cs =>
    some { chunkSize := cs - ptrSize - hdrSize, size := size, curr := none, freeC := none,
           queue := B6Deque.dequeInit (fun _ => none), list := [], tree := .leaf,
           chunks := fun _ => ⟨0, 0, 0, false⟩, supply := supply }

/-- Fallback pool state (never reached in the scenarios). -/
def poolJunk : PoolState :=
  { chunkSize := 0, size := 0, curr := none, freeC := none,
    queue := B6Deque.dequeInit (fun _ => none), list := [], tree := .leaf,
    chunks := fun _ => ⟨0, 0, 0, false⟩, supply := [] }

/-- Extract an initialized pool. -/
def psOr : Option PoolState → PoolState
  | some ps => ps
  | none => poolJunk

/-- The C5 scenario pool: `size = 16`, automatic chunk size, one chunk
available at address 1000. -/
def c5ps0 : PoolState := psOr (poolInit 16 0 [1000])

def c5g1 : Option Nat × PoolState := poolGet c5ps0 10
def c5g2 : Option Nat × PoolState := poolGet c5g1.2 10
def c5g3 : Option Nat × PoolState := poolGet c5g2.2 10
def c5afterPut : PoolState := poolPut c5g3.2 1096
def c5g4 : Option Nat × PoolState := poolGet c5afterPut 10

end B6Pool
namespace B6Pool

/-- Claim C5: with `size = 16` and an automatically chosen chunk size,
after `get` returns the slots p = 1080, q = 1096, r = 1112 and `put(q)`,
the next `get` returns q again: the most recently freed slot of a live
chunk is recycled first. -/
theorem pool_recycles_most_recent_free :
    (poolInit 16 0 [1000]).isSome ∧
    c5g1.1 = some 1080 ∧ c5g2.1 = some 1096 ∧ c5g3.1 = some 1112 ∧
    c5g4.1 = some 1096 := by decide

/-- Claim C6 (counterexample): with chunk size 16 and a single chunk
starting at address 0, `find_chunk` maps the pointer 16 = chunk_start +
chunk_size to that chunk, although the claim says a pointer equal to
`chunk_start + chunk_size` belongs to no chunk starting at `chunk_start`:
the code's interval test is `chunk <= ptr <= chunk + chunk_size`, closed
on the right. -/
theorem find_chunk_at_end_found :
    findChunk 16 (.node .leaf 0 .leaf) 16 = some 0 ∧
    chunkMem 0 (.node .leaf 0 .leaf) = true ∧ ¬(16 < 0 + 16) := by decide

/-- All chunks of a tree satisfy a predicate. -/
def allTree (f : Nat → Bool) : ChunkTree → Bool
  | .leaf => true
  | .node l s r => f s && allTree f l && allTree f r

/-- The chunk tree is sorted by start address with the closed ranges
pairwise separated (`c + chunk_size < s` between left chunks and the
node, etc.), as maintained by a pool whose chunks do not overlap. -/
def chunkSorted (chunkSize : Nat) : ChunkTree → Bool
  | .leaf => true
  | .node l s r =>
    allTree (fun c => decide (c + chunkSize < s)) l &&
    allTree (fun c => decide (s + chunkSize < c)) r &&
    chunkSorted chunkSize l && chunkSorted chunkSize r

theorem allTree_mem (f : Nat → Bool) (t : ChunkTree) (c : Nat)
    (ha : allTree f t = true) (hm : chunkMem c t = true) : f c = true := by
  induction t with
  | leaf => simp [chunkMem] at hm
  | node l s r ihl ihr =>
    simp only [allTree, Bool.and_eq_true] at ha
    simp only [chunkMem, Bool.or_eq_true, decide_eq_true_eq] at hm
    rcases hm with (rfl | hm) | hm
    · exact ha.1.1
    · exact ihl ha.1.2 hm
    · exact ihr ha.2 hm

/-- Claim C6 (amended): over a sorted chunk tree with separated ranges,
the lookup used by get and put maps a raw pointer p to chunk c if and
only if c lies in the tree and p is inside the CLOSED interval
[chunk_start, chunk_start + chunk_size]; a pointer equal to
`chunk_start + chunk_size` belongs to the chunk starting at `chunk_start`
(it is exactly the address of the last slot a full chunk hands out). -/
theorem find_chunk_range (chunkSize : Nat) (t : ChunkTree) (p c : Nat)
    (hs : chunkSorted chunkSize t = true) :
    findChunk chunkSize t p = some c ↔
      chunkMem c t = true ∧ c ≤ p ∧ p ≤ c + chunkSize := by
  induction t with
  | leaf => simp [findChunk, chunkMem]
  | node l s r ihl ihr =>
    simp only [chunkSorted, Bool.and_eq_true] at hs
    obtain ⟨⟨⟨hal, har⟩, hsl⟩, hsr⟩ := hs
    unfold findChunk
    by_cases h1 : s > p
    · rw [if_pos h1, ihl hsl]
      simp only [chunkMem, Bool.or_eq_true, decide_eq_true_eq]
      constructor
      · rintro ⟨hm, hr⟩
        exact ⟨Or.inl (Or.inr hm), hr⟩
      · rintro ⟨(rfl | hm) | hm, hr⟩
        · omega
        · exact ⟨hm, hr⟩
        · exfalso
          have hb := allTree_mem _ _ _ har hm
          simp only [decide_eq_true_eq] at hb
          omega
    · rw [if_neg h1]
      by_cases h2 : s + chunkSize < p
      · rw [if_pos h2, ihr hsr]
        simp only [chunkMem, Bool.or_eq_true, decide_eq_true_eq]
        constructor
        · rintro ⟨hm, hr⟩
          exact ⟨Or.inr hm, hr⟩
        · rintro ⟨(rfl | hm) | hm, hr⟩
          · omega
          · exfalso
            have hb := allTree_mem _ _ _ hal hm
            simp only [decide_eq_true_eq] at hb
            omega
          · exact ⟨hm, hr⟩
      · rw [if_neg h2]
        simp only [Option.some.injEq, chunkMem, Bool.or_eq_true, decide_eq_true_eq]
        constructor
        · rintro rfl
          exact ⟨Or.inl (Or.inl rfl), by omega, by omega⟩
        · rintro ⟨(rfl | hm) | hm, hr⟩
          · rfl
          · exfalso
            have hb := allTree_mem _ _ _ hal hm
            simp only [decide_eq_true_eq] at hb
            omega
          · exfalso
            have hb := allTree_mem _ _ _ har hm
            simp only [decide_eq_true_eq] at hb
            omega

/-- Three separated chunks at 0, 100, 200. -/
def c6tree : ChunkTree := .node (.node .leaf 0 .leaf) 100 (.node .leaf 200 .leaf)

/-- Witness for the claim C6 (amended) theorem at chunk size 16, pointer
108 inside the chunk at 100. -/
theorem find_chunk_range_witness :
    chunkSorted 16 c6tree = true ∧
    (findChunk 16 c6tree 108 = some 100 ↔
      chunkMem 100 c6tree = true ∧ 100 ≤ 108 ∧ 108 ≤ 100 + 16) :=
  ⟨by decide, find_chunk_range 16 c6tree 108 100 (by decide)⟩

end B6Pool
namespace B6Tree

/-! Machinery for claim C8: a functional abstraction of the physical tree
hanging from a child link, used to express "the tree contains a node equal
to the one being inserted" and to prove that `b6_tree_search` then finds
it.  The sentinels are ordinary nodes of the physical tree (see C1/C4),
ranked below (head) and above (tail) every key that is searched for. -/

/-- Functional binary tree of node identifiers: `node l i r` has the
`B6_PREV` subtree `l` and the `B6_NEXT` subtree `r`. -/
inductive FTree where
  | leaf
  | node (l : FTree) (i : Nat) (r : FTree)
deriving DecidableEq

/-- In-order list of node identifiers. -/
def FTree.nodes : FTree → List Nat
  | .leaf => []
  | .node l i r => l.nodes ++ i :: r.nodes

/-- Number of nodes. -/
def FTree.size : FTree → Nat
  | .leaf => 0
  | .node l _ r => l.size + r.size + 1

/-- Bound check `lo < x < hi` with optional bounds. -/
def inbB (lo hi : Option Int) (x : Int) : Bool :=
  (match lo with | none => true | some a => decide (a < x)) &&
  (match hi with | none => true | some b => decide (x < b))

/-- Tree `t` is a binary search tree for the ranking `val`, all values strictly
between the optional bounds. -/
def bstOk (val : Nat → Int) : Option Int → Option Int → FTree → Bool
  | _, _, .leaf => true
  | lo, hi, .node l i r =>
    inbB lo hi (val i) && bstOk val lo (some (val i)) l && bstOk val (some (val i)) hi r

/-- The heap subtree hanging from link `oi` has the functional shape `t`
(child links only; `top`/`dir`/`balance` are not constrained). -/
inductive AbsT (s : Heap) : Option Nat → FTree → Prop
  | leaf : AbsT s none .leaf
  | node {i : Nat} {l r : FTree} :
      AbsT s (s i).prev l → AbsT s (s i).next r → AbsT s (some i) (.node l i r)

theorem bstOk_mem_bounds (val : Nat → Int) :
    ∀ (t : FTree) (lo hi : Option Int), bstOk val lo hi t = true →
      ∀ m ∈ t.nodes, inbB lo hi (val m) = true := by
  intro t
  induction t with
  | leaf => intro lo hi _ m hm; simp [FTree.nodes] at hm
  | node l i r ihl ihr =>
    intro lo hi hb m hm
    simp only [bstOk, Bool.and_eq_true] at hb
    obtain ⟨⟨hi0, hl⟩, hr⟩ := hb
    simp only [FTree.nodes, List.mem_append, List.mem_cons] at hm
    simp only [inbB, Bool.and_eq_true] at hi0 ⊢
    rcases hm with hm | rfl | hm
    · have := ihl lo (some (val i)) hl m hm
      simp only [inbB, Bool.and_eq_true] at this
      refine ⟨this.1, ?_⟩
      rcases hhi : hi with _ | b
      · rfl
      · simp only [decide_eq_true_eq]
        have h1 := this.2
        simp only [decide_eq_true_eq] at h1
        have h2 := hi0.2
        rw [hhi] at h2
        simp only [decide_eq_true_eq] at h2
        omega
    · exact hi0
    · have := ihr (some (val i)) hi hr m hm
      simp only [inbB, Bool.and_eq_true] at this
      refine ⟨?_, this.2⟩
      rcases hlo : lo with _ | a
      · rfl
      · simp only [decide_eq_true_eq]
        have h1 := this.1
        simp only [decide_eq_true_eq] at h1
        have h2 := hi0.1
        rw [hlo] at h2
        simp only [decide_eq_true_eq] at h2
        omega

end B6Tree

namespace B6Tree

theorem AbsT_node_inv {s : Heap} {X : Option Nat} {l : FTree} {i : Nat} {r : FTree}
    (h : AbsT s X (.node l i r)) :
    X = some i ∧ AbsT s (s i).prev l ∧ AbsT s (s i).next r := by
  cases h
  exact ⟨rfl, by assumption, by assumption⟩

theorem signOf_eq_zero {x : Int} (h : x = 0) : signOf x = 0 := by
  rw [h]; rfl

theorem mem_nodes_left {l r : FTree} {i m : Nat} (h : m ∈ l.nodes) :
    m ∈ (FTree.node l i r).nodes := by
  simp only [FTree.nodes, List.mem_append, List.mem_cons]
  exact Or.inl h

theorem mem_nodes_self {l r : FTree} {i : Nat} : i ∈ (FTree.node l i r).nodes := by
  simp only [FTree.nodes]
  exact List.mem_append.2 (Or.inr (List.mem_cons_self i r.nodes))

theorem mem_nodes_right {l r : FTree} {i m : Nat} (h : m ∈ r.nodes) :
    m ∈ (FTree.node l i r).nodes := by
  simp only [FTree.nodes, List.mem_append, List.mem_cons]
  exact Or.inr (Or.inr h)

theorem treeSearchLoop_finds (s : Heap) (cmp : Nat → Int) (val : Nat → Int) (K : Int)
    (hcmp : ∀ n, n ≠ HEAD → n ≠ TAIL → cmp n = signOf (val n - K))
    (hH : val HEAD < K) (hT : K < val TAIL) :
    ∀ (T : FTree) (fuel top dir : Nat) (calls : List Nat) (lo hi : Option Int),
      AbsT s ((s top).child dir) T →
      bstOk val lo hi T = true →
      inbB lo hi K = true →
      (∃ m, m ∈ T.nodes ∧ val m = K) →
      T.size < fuel →
      ∃ m, (treeSearchLoop s cmp fuel top dir calls).found = some m ∧
        m ∈ T.nodes ∧ val m = K := by
  intro T
  induction T with
  | leaf =>
    intro fuel top dir calls lo hi _ _ _ hm _
    obtain ⟨m, hm, _⟩ := hm
    simp [FTree.nodes] at hm
  | node l i r ihl ihr =>
    intro fuel top dir calls lo hi habs hbst hK hm hsz
    obtain ⟨hX, hl, hr⟩ := AbsT_node_inv habs
    simp only [bstOk, Bool.and_eq_true] at hbst
    obtain ⟨⟨hbi, hbl⟩, hbr⟩ := hbst
    simp only [inbB, Bool.and_eq_true] at hbi hK
    -- membership helpers
    have hmem : ∀ m ∈ FTree.nodes (.node l i r), val m = K →
        (val i < K → m ∈ r.nodes) ∧ (K < val i → m ∈ l.nodes) := by
      intro m hmm hval
      simp only [FTree.nodes, List.mem_append, List.mem_cons] at hmm
      constructor
      · intro hlt
        rcases hmm with hml | rfl | hmr
        · exfalso
          have := bstOk_mem_bounds val l lo (some (val i)) hbl m hml
          simp only [inbB, Bool.and_eq_true, decide_eq_true_eq] at this
          omega
        · omega
        · exact hmr
      · intro hlt
        rcases hmm with hml | rfl | hmr
        · exact hml
        · omega
        · exfalso
          have := bstOk_mem_bounds val r (some (val i)) hi hbr m hmr
          simp only [inbB, Bool.and_eq_true, decide_eq_true_eq] at this
          omega
    match fuel with
    | 0 => exact absurd hsz (by simp [FTree.size])
    | fuel + 1 =>
    rw [treeSearchLoop, hX]
    dsimp only
    by_cases h1 : i = HEAD
    · -- forced B6_NEXT; the match lies to the right of head
      have hiK : val i < K := by rw [h1]; exact hH
      obtain ⟨m, hmm, hval⟩ := hm
      have hmr : m ∈ r.nodes := (hmem m hmm hval).1 hiK
      rcases r with _ | ⟨rl, j, rr⟩
      · simp [FTree.nodes] at hmr
      · obtain ⟨hXr, _, _⟩ := AbsT_node_inv hr
        rw [if_pos h1]
        have hch : hasChild s i NEXT = true := by
          simp [hasChild, TRef.child, NEXT, hXr]
        rw [if_pos hch]
        obtain ⟨m', hfound, hmm', hval'⟩ := ihr fuel i NEXT calls (some (val i)) hi
          hr hbr
          (by simp only [inbB, Bool.and_eq_true, decide_eq_true_eq]
              exact ⟨hiK, hK.2⟩)
          ⟨m, hmr, hval⟩
          (by simp only [FTree.size] at hsz ⊢; omega)
        exact ⟨m', hfound, mem_nodes_right hmm', hval'⟩
    · rw [if_neg h1]
      by_cases h2 : i = TAIL
      · have hiK : K < val i := by rw [h2]; exact hT
        obtain ⟨m, hmm, hval⟩ := hm
        have hml : m ∈ l.nodes := (hmem m hmm hval).2 hiK
        rcases l with _ | ⟨ll, j, lr⟩
        · simp [FTree.nodes] at hml
        · obtain ⟨hXl, _, _⟩ := AbsT_node_inv hl
          rw [if_pos h2]
          have hch : hasChild s i PREV = true := by
            simp [hasChild, TRef.child, PREV, hXl]
          rw [if_pos hch]
          obtain ⟨m', hfound, hmm', hval'⟩ := ihl fuel i PREV calls lo (some (val i))
            hl hbl
            (by simp only [inbB, Bool.and_eq_true, decide_eq_true_eq]
                exact ⟨hK.1, hiK⟩)
            ⟨m, hml, hval⟩
            (by simp only [FTree.size] at hsz ⊢; omega)
          exact ⟨m', hfound, mem_nodes_left hmm', hval'⟩
      · rw [if_neg h2]
        have hcmpi : cmp i = signOf (val i - K) := hcmp i h1 h2
        rcases lt_trichotomy (val i) K with hlt | heq | hgt
        · -- result = -1, direction NEXT
          have hres1 : cmp i = -1 := by
            rw [hcmpi]
            simp only [signOf, if_pos (by omega : val i - K < 0)]
          rw [hres1]
          norm_num
          obtain ⟨m, hmm, hval⟩ := hm
          have hmr : m ∈ r.nodes := (hmem m hmm hval).1 hlt
          rcases r with _ | ⟨rl, j, rr⟩
          · simp [FTree.nodes] at hmr
          · obtain ⟨hXr, _, _⟩ := AbsT_node_inv hr
            have hdir : toDirection 1 = NEXT := by decide
            rw [hdir]
            have hch : hasChild s i NEXT = true := by
              simp [hasChild, TRef.child, NEXT, hXr]
            rw [if_pos hch]
            obtain ⟨m', hfound, hmm', hval'⟩ := ihr fuel i NEXT (calls ++ [i])
              (some (val i)) hi hr hbr
              (by simp only [inbB, Bool.and_eq_true, decide_eq_true_eq]
                  exact ⟨hlt, hK.2⟩)
              ⟨m, hmr, hval⟩
              (by simp only [FTree.size] at hsz ⊢; omega)
            exact ⟨m', hfound, mem_nodes_right hmm', hval'⟩
        · -- result = 0: found
          have hres1 : cmp i = 0 := by
            rw [hcmpi, signOf_eq_zero (by omega)]
          rw [hres1]
          exact ⟨i, rfl, mem_nodes_self, heq⟩
        · -- result = 1, direction PREV
          have hres1 : cmp i = 1 := by
            rw [hcmpi]
            simp only [signOf, if_neg (by omega : ¬(val i - K < 0)),
              if_pos (by omega : (0:Int) < val i - K)]
          rw [hres1]
          norm_num
          obtain ⟨m, hmm, hval⟩ := hm
          have hml : m ∈ l.nodes := (hmem m hmm hval).2 hgt
          rcases l with _ | ⟨ll, j, lr⟩
          · simp [FTree.nodes] at hml
          · obtain ⟨hXl, _, _⟩ := AbsT_node_inv hl
            have hdir : toDirection (-1) = PREV := by decide
            rw [hdir]
            have hch : hasChild s i PREV = true := by
              simp [hasChild, TRef.child, PREV, hXl]
            rw [if_pos hch]
            obtain ⟨m', hfound, hmm', hval'⟩ := ihl fuel i PREV (calls ++ [i])
              lo (some (val i)) hl hbl
              (by simp only [inbB, Bool.and_eq_true, decide_eq_true_eq]
                  exact ⟨hK.1, hgt⟩)
              ⟨m, hml, hval⟩
              (by simp only [FTree.size] at hsz ⊢; omega)
            exact ⟨m', hfound, mem_nodes_left hmm', hval'⟩

end B6Tree

namespace B6Tree

theorem bst_zero_side (val : Nat → Int) (K : Int) {l r : FTree} {i : Nat}
    {lo hi : Option Int}
    (hbl : bstOk val lo (some (val i)) l = true)
    (hbr : bstOk val (some (val i)) hi r = true)
    {m : Nat} (hm : m ∈ (FTree.node l i r).nodes) (hval : val m = K) :
    (val i < K → m ∈ r.nodes) ∧ (K < val i → m ∈ l.nodes) := by
  simp only [FTree.nodes, List.mem_append, List.mem_cons] at hm
  constructor
  · intro hlt
    rcases hm with hml | rfl | hmr
    · exfalso
      have := bstOk_mem_bounds val l lo (some (val i)) hbl m hml
      simp only [inbB, Bool.and_eq_true, decide_eq_true_eq] at this
      omega
    · omega
    · exact hmr
  · intro hlt
    rcases hm with hml | rfl | hmr
    · exact hml
    · omega
    · exfalso
      have := bstOk_mem_bounds val r (some (val i)) hi hbr m hmr
      simp only [inbB, Bool.and_eq_true, decide_eq_true_eq] at this
      omega

end B6Tree

namespace B6Splay

open B6Tree (FTree mem_nodes_left mem_nodes_right mem_nodes_self)

/-- Multiset of node identifiers of a functional tree. -/
def nodesM (t : FTree) : Multiset Nat := (t.nodes : Multiset Nat)

theorem nodesM_leaf : nodesM .leaf = 0 := rfl

theorem nodesM_node (l : FTree) (i : Nat) (r : FTree) :
    nodesM (.node l i r) = nodesM l + (i ::ₘ nodesM r) := by
  simp only [nodesM, FTree.nodes, ← Multiset.coe_add, ← Multiset.cons_coe]

theorem mem_nodesM {m : Nat} {t : FTree} : m ∈ nodesM t ↔ m ∈ t.nodes :=
  Multiset.mem_coe

/-- The heap subtree hanging from link `oi` has functional shape `t`. -/
inductive AbsD (h : DHeap) : Option Nat → FTree → Prop
  | leaf : AbsD h none .leaf
  | node {i : Nat} {l r : FTree} :
      AbsD h (h i).prev l → AbsD h (h i).next r → AbsD h (some i) (.node l i r)

theorem AbsD_node_inv {h : DHeap} {X : Option Nat} {l : FTree} {i : Nat} {r : FTree}
    (habs : AbsD h X (.node l i r)) :
    X = some i ∧ AbsD h (h i).prev l ∧ AbsD h (h i).next r := by
  cases habs
  exact ⟨rfl, by assumption, by assumption⟩

theorem AbsD_some_node {h : DHeap} {root : Nat} {M : FTree} (habs : AbsD h (some root) M) :
    ∃ l r, M = .node l root r := by
  cases habs
  exact ⟨_, _, rfl⟩

theorem updD_same (h : DHeap) (j : Nat) (f : DRef → DRef) : updD h j f j = f (h j) := by
  simp [updD]

theorem updD_other (h : DHeap) (j : Nat) (f : DRef → DRef) (k : Nat) (hk : k ≠ j) :
    updD h j f k = h k := by
  simp [updD, hk]

theorem setChild_child_same (t : DRef) (d : Nat) (v : Option Nat) (hd : d = 0 ∨ d = 1) :
    (t.setChild d v).child d = v := by
  rcases hd with rfl | rfl <;> rfl

theorem setChild_child_other (t : DRef) (d : Nat) (v : Option Nat) (hd : d = 0 ∨ d = 1) :
    (t.setChild d v).child (d ^^^ 1) = t.child (d ^^^ 1) := by
  rcases hd with rfl | rfl <;> rfl

theorem setChild1_child0 (t : DRef) (v : Option Nat) : (t.setChild 1 v).child 0 = t.child 0 := rfl

theorem setChild0_child1 (t : DRef) (v : Option Nat) : (t.setChild 0 v).child 1 = t.child 1 := rfl

theorem AbsD_frame : ∀ (t : FTree) (oi : Option Nat) (h : DHeap) (j : Nat) (f : DRef → DRef),
    AbsD h oi t → j ∉ t.nodes → AbsD (updD h j f) oi t := by
  intro t
  induction t with
  | leaf =>
    intro oi h j f habs _
    cases habs
    exact .leaf
  | node l i r ihl ihr =>
    intro oi h j f habs hj
    obtain ⟨rfl, hl, hr⟩ := AbsD_node_inv habs
    have hij : i ≠ j := fun he => hj (he ▸ mem_nodes_self)
    have hupd : updD h j f i = h i := updD_other h j f i hij
    refine AbsD.node ?_ ?_
    · rw [hupd]
      exact ihl _ h j f hl (fun hm => hj (mem_nodes_left hm))
    · rw [hupd]
      exact ihr _ h j f hr (fun hm => hj (mem_nodes_right hm))

end B6Splay

namespace B6Splay

open B6Tree (FTree)

/-- The spine of one reassembly piece of the top-down splay: starting at
anchor `a` and repeatedly following the child link in direction `d`, the
nodes passed so far, each with its (abstracted) subtree on the opposite
side; `last` is the last node passed (or the anchor when none was).  The
`d`-side link of `last` — the hole of the piece — is not constrained. -/
inductive Spine (h : DHeap) (d : Nat) : Nat → Nat → List (Nat × FTree) → Prop
  | nil (a : Nat) : Spine h d a a []
  | cons {a n last : Nat} {sub : FTree} {rest : List (Nat × FTree)} :
      (h a).child d = some n →
      AbsD h ((h n).child (d ^^^ 1)) sub →
      Spine h d n last rest →
      Spine h d a last ((n, sub) :: rest)

/-- Node identifiers held by a spine: its chain nodes and their subtrees. -/
def spineM : List (Nat × FTree) → Multiset Nat
  | [] => 0
  | (n, sub) :: rest => n ::ₘ (nodesM sub + spineM rest)

theorem spineM_append : ∀ (xs ys : List (Nat × FTree)),
    spineM (xs ++ ys) = spineM xs + spineM ys := by
  intro xs ys
  induction xs with
  | nil => simp [spineM]
  | cons p rest ih =>
    rcases p with ⟨n, sub⟩
    simp only [List.cons_append, spineM, List.append_eq, ih]
    rw [Multiset.cons_add, add_assoc]

theorem Spine_last {h : DHeap} {d a last : Nat} {ctx : List (Nat × FTree)}
    (hs : Spine h d a last ctx) : last = a ∨ last ∈ spineM ctx := by
  induction hs with
  | nil => exact Or.inl rfl
  | @cons a n last sub rest _ _ _ ih =>
    rcases ih with rfl | hmem
    · exact Or.inr (by simp [spineM])
    · exact Or.inr (by simp only [spineM, Multiset.mem_cons, Multiset.mem_add]; tauto)

/-- Frame rule for a spine: a write to a node outside the spine's nodes
preserves it; a write to the anchor itself is also fine when it does not
change the anchor's `d`-side link. -/
theorem Spine_frame : ∀ (ctx : List (Nat × FTree)) (h : DHeap) (d a last j : Nat)
    (f : DRef → DRef),
    Spine h d a last ctx → j ∉ spineM ctx →
    (j = a → ∀ t : DRef, (f t).child d = t.child d) →
    Spine (updD h j f) d a last ctx := by
  intro ctx
  induction ctx with
  | nil =>
    intro h d a last j f hs _ _
    cases hs
    exact .nil _
  | cons p rest ih =>
    rcases p with ⟨n, sub⟩
    intro h d a last j f hs hj hja
    cases hs with
    | cons hread hsub htail =>
      have hjn : j ≠ n := fun he => hj (he ▸ by simp [spineM])
      have hjsub : j ∉ sub.nodes := fun hm =>
        hj (by simp only [spineM, Multiset.mem_cons, Multiset.mem_add, mem_nodesM]; tauto)
      have hjrest : j ∉ spineM rest := fun hm =>
        hj (by simp only [spineM, Multiset.mem_cons, Multiset.mem_add]; tauto)
      refine Spine.cons ?_ ?_ ?_
      · by_cases hja' : j = a
        · rw [hja', updD_same, hja hja' (h a)]
          exact hja' ▸ hread
        · rw [updD_other h j f a (fun he => hja' he.symm)]
          exact hread
      · rw [updD_other h j f n hjn.symm]
        exact AbsD_frame sub _ h j f hsub hjsub
      · exact ih h d n last j f htail hjrest (fun he => absurd he hjn)

/-- Writing through the hole of a spine (the `d`-side link of `last`)
preserves the spine. -/
theorem Spine_write_hole : ∀ (ctx : List (Nat × FTree)) (h : DHeap) (d a last : Nat)
    (v : Option Nat),
    Spine h d a last ctx → (d = 0 ∨ d = 1) →
    (a ::ₘ spineM ctx).Nodup →
    Spine (updD h last (fun t => t.setChild d v)) d a last ctx := by
  intro ctx
  induction ctx with
  | nil =>
    intro h d a last v hs _ _
    cases hs
    exact .nil _
  | cons p rest ih =>
    rcases p with ⟨n, sub⟩
    intro h d a last v hs hd hnd
    cases hs with
    | cons hread hsub htail =>
      rw [Multiset.nodup_cons] at hnd
      obtain ⟨ha, hnd⟩ := hnd
      have hfacts : n ∉ nodesM sub + spineM rest ∧ (nodesM sub + spineM rest).Nodup := by
        rw [spineM, Multiset.nodup_cons] at hnd
        exact hnd
      obtain ⟨hnns, hns⟩ := hfacts
      rw [Multiset.nodup_add] at hns
      have hlastmem : last = n ∨ last ∈ spineM rest := by
        rcases Spine_last htail with rfl | hmem
        · exact Or.inl rfl
        · exact Or.inr hmem
      have hlast_ne_a : last ≠ a := by
        intro he
        apply ha
        rcases hlastmem with rfl | hmem
        · exact he ▸ by simp [spineM]
        · rw [← he]
          simp only [spineM, Multiset.mem_cons, Multiset.mem_add]
          tauto
      refine Spine.cons ?_ ?_ ?_
      · rw [updD_other _ _ _ a hlast_ne_a.symm]
        exact hread
      · by_cases hln : last = n
        · rw [hln, updD_same, setChild_child_other _ _ _ hd]
          refine AbsD_frame sub _ h n _ hsub ?_
          intro hm
          exact hnns (Multiset.mem_add.2 (Or.inl (mem_nodesM.2 hm)))
        · rw [updD_other _ _ _ n (fun he => hln he.symm)]
          refine AbsD_frame sub _ h last _ hsub ?_
          intro hm
          rcases hlastmem with rfl | hmem
          · exact hln rfl
          · exact (Multiset.disjoint_left.1 hns.2.2) (mem_nodesM.2 hm) hmem
      · refine ih h d n last v htail hd ?_
        rw [Multiset.nodup_cons]
        exact ⟨fun hm => hnns (Multiset.mem_add.2 (Or.inr hm)), hns.2.1⟩

theorem Spine_append : ∀ (ctx : List (Nat × FTree)) (h : DHeap) (d a last n : Nat)
    (sub : FTree),
    Spine h d a last ctx → (h last).child d = some n →
    AbsD h ((h n).child (d ^^^ 1)) sub →
    Spine h d a n (ctx ++ [(n, sub)]) := by
  intro ctx
  induction ctx with
  | nil =>
    intro h d a last n sub hs hread habs
    cases hs
    exact Spine.cons hread habs (.nil _)
  | cons p rest ih =>
    rcases p with ⟨m, msub⟩
    intro h d a last n sub hs hread habs
    cases hs with
    | cons hr hsub htail =>
      exact Spine.cons hr hsub (ih h d m last n sub htail hread habs)

/-- The tree a spine reassembles into, once its hole is filled with the
given subtree; direction 0 is the left piece (subtrees hang on the
`B6_PREV` side), direction 1 the right piece. -/
def assemble : Nat → List (Nat × FTree) → FTree → FTree
  | _, [], t => t
  | 0, (n, sub) :: rest, t => .node sub n (assemble 0 rest t)
  | _, (n, sub) :: rest, t => .node (assemble 1 rest t) n sub

theorem nodesM_assemble : ∀ (ctx : List (Nat × FTree)) (d : Nat) (t : FTree),
    d = 0 ∨ d = 1 → nodesM (assemble d ctx t) = spineM ctx + nodesM t := by
  intro ctx
  induction ctx with
  | nil =>
    intro d t hd
    rcases hd with rfl | rfl <;> simp [assemble, spineM]
  | cons p rest ih =>
    rcases p with ⟨n, sub⟩
    intro d t hd
    rcases hd with rfl | rfl
    · simp only [assemble, nodesM_node, spineM, ih 0 t (Or.inl rfl)]
      rw [← Multiset.singleton_add, ← Multiset.singleton_add]
      abel
    · simp only [assemble, nodesM_node, spineM, ih 1 t (Or.inr rfl)]
      rw [← Multiset.singleton_add, ← Multiset.singleton_add]
      abel

theorem Spine_assemble : ∀ (ctx : List (Nat × FTree)) (h : DHeap) (d a last : Nat)
    (hole : FTree),
    Spine h d a last ctx → (d = 0 ∨ d = 1) →
    AbsD h ((h last).child d) hole →
    AbsD h ((h a).child d) (assemble d ctx hole) := by
  intro ctx
  induction ctx with
  | nil =>
    intro h d a last hole hs hd habs
    cases hs
    rcases hd with rfl | rfl <;> exact habs
  | cons p rest ih =>
    rcases p with ⟨n, sub⟩
    intro h d a last hole hs hd habs
    cases hs with
    | cons hread hsub htail =>
      rw [hread]
      rcases hd with rfl | rfl
      · exact AbsD.node hsub (ih h 0 n last hole htail (Or.inl rfl) habs)
      · exact AbsD.node (ih h 1 n last hole htail (Or.inr rfl) habs) hsub

end B6Splay

namespace B6Splay

open B6Tree (FTree bstOk inbB signOf mem_nodes_self mem_nodes_left mem_nodes_right)

/-- Everything the `do_splay` loop maintains for claim C8: the middle tree,
the two reassembly spines, the search-interval bounds with the match still
inside the middle, the original node multiset as the disjoint union of the
pieces, and the untouched remainder of the heap. -/
structure LoopInv (val : Nat → Int) (K : Int) (h h0 : DHeap) (root refP refN : Nat)
    (M : FTree) (Lctx Rctx : List (Nat × FTree)) (orig : Multiset Nat)
    (lo hi : Option Int) : Prop where
  habs : AbsD h (some root) M
  hbst : bstOk val lo hi M = true
  hK : inbB lo hi K = true
  hm : ∃ m, m ∈ M.nodes ∧ val m = K
  hL : Spine h 0 TMP refP Lctx
  hR : Spine h 1 TMP refN Rctx
  hnd : orig.Nodup
  htmp : TMP ∉ orig
  horig : orig = nodesM M + spineM Lctx + spineM Rctx
  hframe : ∀ j, j ∉ orig → j ≠ TMP → h j = h0 j

theorem nodup_parts {A B C : Multiset Nat} (h : (A + B + C).Nodup) :
    A.Nodup ∧ B.Nodup ∧ C.Nodup ∧
    (∀ x, x ∈ A → x ∉ B) ∧ (∀ x, x ∈ A → x ∉ C) ∧ (∀ x, x ∈ B → x ∉ C) := by
  rw [Multiset.nodup_add] at h
  obtain ⟨hAB, hC, hd1⟩ := h
  rw [Multiset.nodup_add] at hAB
  obtain ⟨hA, hB, hd2⟩ := hAB
  refine ⟨hA, hB, hC, ?_, ?_, ?_⟩
  · exact fun x hx => Multiset.disjoint_left.1 hd2 hx
  · exact fun x hx => Multiset.disjoint_left.1 hd1 (Multiset.mem_add.2 (Or.inl hx))
  · exact fun x hx => Multiset.disjoint_left.1 hd1 (Multiset.mem_add.2 (Or.inr hx))

theorem splayCmp_trichotomy (cmp val : Nat → Int) (K : Int)
    (hcmp : ∀ n, n ≠ SHEAD → n ≠ STAIL → cmp n = signOf (val n - K))
    (hH : val SHEAD < K) (hT : K < val STAIL) (root : Nat) :
    ((splayCmp cmp root).1 = -1 ∧ val root < K) ∨
    ((splayCmp cmp root).1 = 0 ∧ val root = K ∧ root ≠ SHEAD ∧ root ≠ STAIL) ∨
    ((splayCmp cmp root).1 = 1 ∧ K < val root) := by
  unfold splayCmp
  by_cases h1 : root = SHEAD
  · rw [if_pos h1]
    exact Or.inl ⟨rfl, by rw [h1]; exact hH⟩
  · rw [if_neg h1]
    by_cases h2 : root = STAIL
    · rw [if_pos h2]
      exact Or.inr (Or.inr ⟨rfl, by rw [h2]; exact hT⟩)
    · rw [if_neg h2]
      have hc := hcmp root h1 h2
      rcases lt_trichotomy (val root) K with hlt | heq | hgt
      · refine Or.inl ⟨?_, hlt⟩
        dsimp only
        rw [hc]
        simp only [signOf, if_pos (by omega : val root - K < 0)]
      · refine Or.inr (Or.inl ⟨?_, heq, h1, h2⟩)
        dsimp only
        rw [hc, B6Tree.signOf_eq_zero (by omega)]
      · refine Or.inr (Or.inr ⟨?_, hgt⟩)
        dsimp only
        rw [hc]
        simp only [signOf, if_neg (by omega : ¬(val root - K < 0)),
          if_pos (by omega : (0:Int) < val root - K)]

/-- The plain link step of the splay loop, descending toward `B6_NEXT`:
`ref[B6_PREV]->ref[B6_NEXT] = root; ref[B6_PREV] = root;
root = root->ref[B6_NEXT]` preserves the loop invariant, moving the root
and its `B6_PREV` subtree into the left spine. -/
theorem step_link_next (val : Nat → Int) (K : Int) (h h0 : DHeap)
    (i refP refN : Nat) (l rl rr : FTree) (j : Nat)
    (Lctx Rctx : List (Nat × FTree)) (orig : Multiset Nat) (lo hi : Option Int)
    (inv : LoopInv val K h h0 i refP refN (.node l i (.node rl j rr)) Lctx Rctx orig lo hi)
    (hiK : val i < K) :
    LoopInv val K (updD h refP (fun t => t.setChild 0 (some i)))
      h0 j i refN (.node rl j rr) (Lctx ++ [(i, l)]) Rctx orig (some (val i)) hi ∧
    (updD h refP (fun t => t.setChild 0 (some i)) i).child 0 = some j := by
  obtain ⟨rfl2, hli, hri⟩ := AbsD_node_inv inv.habs
  obtain ⟨hij, hrl, hrr⟩ := AbsD_node_inv hri
  have nd := nodup_parts (inv.horig ▸ inv.hnd)
  obtain ⟨ndA, ndB, ndC, dAB, dAC, dBC⟩ := nd
  have hiA : (i : Nat) ∈ nodesM (FTree.node l i (.node rl j rr)) :=
    mem_nodesM.2 mem_nodes_self
  have hjA : (j : Nat) ∈ nodesM (FTree.node l i (.node rl j rr)) :=
    mem_nodesM.2 (mem_nodes_right mem_nodes_self)
  have htmpA : TMP ∉ nodesM (FTree.node l i (.node rl j rr)) := fun hm =>
    inv.htmp (inv.horig ▸ Multiset.mem_add.2 (Or.inl (Multiset.mem_add.2 (Or.inl hm))))
  have htmpB : TMP ∉ spineM Lctx := fun hm =>
    inv.htmp (inv.horig ▸ Multiset.mem_add.2 (Or.inl (Multiset.mem_add.2 (Or.inr hm))))
  have htmpC : TMP ∉ spineM Rctx := fun hm =>
    inv.htmp (inv.horig ▸ Multiset.mem_add.2 (Or.inr hm))
  -- where the written node refP lives
  have hrefP : refP = TMP ∨ refP ∈ spineM Lctx := Spine_last inv.hL
  have hrefPA : refP ∉ nodesM (FTree.node l i (.node rl j rr)) := by
    rcases hrefP with rfl | hmem
    · exact htmpA
    · exact fun hm => dAB refP hm hmem
  have hrefPC : refP ∉ spineM Rctx := by
    rcases hrefP with rfl | hmem
    · exact htmpC
    · exact fun hm => dBC refP hmem hm
  have hinotP : i ≠ refP := by
    rcases hrefP with rfl | hmem
    · exact fun he => htmpA (he ▸ hiA)
    · exact fun he => dAB i hiA (he ▸ hmem)
  have hjnotP : j ≠ refP := by
    rcases hrefP with rfl | hmem
    · exact fun he => htmpA (he ▸ hjA)
    · exact fun he => dAB j hjA (he ▸ hmem)
  have hread : (updD h refP (fun t => t.setChild 0 (some i)) i).child 0 = some j := by
    rw [updD_other _ _ _ i hinotP]
    exact hij
  refine ⟨?_, hread⟩
  have hbstparts := inv.hbst
  simp only [bstOk, Bool.and_eq_true] at hbstparts
  obtain ⟨⟨hbi, hbl⟩, hbr2⟩ := hbstparts
  have hbr : bstOk val (some (val i)) hi (.node rl j rr) = true := by
    simp only [bstOk, Bool.and_eq_true]
    exact hbr2
  have hKparts := inv.hK
  simp only [inbB, Bool.and_eq_true] at hKparts
  refine
    { habs := ?_, hbst := hbr, hK := ?_, hm := ?_, hL := ?_, hR := ?_,
      hnd := inv.hnd, htmp := inv.htmp, horig := ?_, hframe := ?_ }
  · -- middle tree: the right subtree, untouched by the write to refP
    refine AbsD_frame _ _ h refP _ (AbsD.node hrl hrr) ?_
    exact fun hm => hrefPA (mem_nodesM.2 (mem_nodes_right (mem_nodesM.1 (mem_nodesM.2 hm))))
  · -- bounds: val i < K on the left, old bound on the right
    simp only [inbB, Bool.and_eq_true, decide_eq_true_eq]
    exact ⟨hiK, hKparts.2⟩
  · -- the match moves into the right subtree
    obtain ⟨m, hmm, hval⟩ := inv.hm
    exact ⟨m, (B6Tree.bst_zero_side val K hbl hbr hmm hval).1 hiK, hval⟩
  · -- left spine: write the hole, then append (i, l)
    have s1 : Spine (updD h refP (fun t => t.setChild 0 (some i))) 0 TMP refP Lctx := by
      refine Spine_write_hole Lctx h 0 TMP refP (some i) inv.hL (Or.inl rfl) ?_
      rw [Multiset.nodup_cons]
      exact ⟨htmpB, ndB⟩
    refine Spine_append Lctx _ 0 TMP refP i l s1 ?_ ?_
    · rw [updD_same]
      exact setChild_child_same _ 0 (some i) (Or.inl rfl)
    · rw [updD_other _ _ _ i hinotP]
      refine AbsD_frame l _ h refP _ hli ?_
      exact fun hm => hrefPA (mem_nodesM.2 (mem_nodes_left hm))
  · -- right spine untouched (the write does not change child 1 of refP)
    exact Spine_frame Rctx h 1 TMP refN refP _ inv.hR hrefPC
      (fun _ t => setChild0_child1 t (some i))
  · -- node accounting
    rw [inv.horig, spineM_append]
    simp only [nodesM_node, spineM, add_zero]
    simp only [← Multiset.singleton_add]
    abel
  · -- untouched heap outside the original nodes
    intro jj hjj hjt
    have hjjP : jj ≠ refP := by
      rcases hrefP with rfl | hmem
      · exact hjt
      · exact fun he => hjj (he ▸ inv.horig ▸
          Multiset.mem_add.2 (Or.inl (Multiset.mem_add.2 (Or.inr hmem))))
    rw [updD_other _ _ _ jj hjjP]
    exact inv.hframe jj hjj hjt

end B6Splay

namespace B6Splay

open B6Tree (FTree bstOk inbB signOf mem_nodes_self mem_nodes_left mem_nodes_right)

theorem nodup_node {l r : FTree} {i : Nat} (h : (FTree.node l i r).nodes.Nodup) :
    l.nodes.Nodup ∧ r.nodes.Nodup ∧ i ∉ l.nodes ∧ i ∉ r.nodes ∧
    (∀ x, x ∈ l.nodes → x ∉ r.nodes) := by
  simp only [FTree.nodes, List.nodup_append, List.nodup_cons] at h
  obtain ⟨hl, ⟨hir, hr⟩, hdisj⟩ := h
  have hdisj' := List.disjoint_left.1 hdisj
  refine ⟨hl, hr, ?_, hir, ?_⟩
  · intro hm
    exact hdisj' hm (List.mem_cons_self i r.nodes)
  · intro x hx hxr
    exact hdisj' hx (List.mem_cons_of_mem i hxr)

/-- The zig-zig step of the splay loop, descending toward `B6_NEXT` twice:
the rotation `root->ref[B6_NEXT] = swp->ref[B6_PREV]; swp->ref[B6_PREV] =
root` followed by the link step preserves the loop invariant, moving the
rotated pair into the left spine. -/
theorem step_zigzig_next (val : Nat → Int) (K : Int) (h h0 : DHeap)
    (i refP refN : Nat) (l rl rrl rrr : FTree) (j k : Nat)
    (Lctx Rctx : List (Nat × FTree)) (orig : Multiset Nat) (lo hi : Option Int)
    (inv : LoopInv val K h h0 i refP refN
      (.node l i (.node rl j (.node rrl k rrr))) Lctx Rctx orig lo hi)
    (hiK : val i < K) (hjK : val j < K) :
    ((updD (updD h i (fun t => t.setChild 0 ((h j).child 1))) j
        (fun t => t.setChild 1 (some i))) j).child 0 = some k ∧
    ((updD (updD (updD h i (fun t => t.setChild 0 ((h j).child 1))) j
        (fun t => t.setChild 1 (some i))) refP
        (fun t => t.setChild 0 (some j))) j).child 0 = some k ∧
    LoopInv val K
      (updD (updD (updD h i (fun t => t.setChild 0 ((h j).child 1))) j
        (fun t => t.setChild 1 (some i))) refP (fun t => t.setChild 0 (some j)))
      h0 k j refN (.node rrl k rrr) (Lctx ++ [(j, .node l i rl)]) Rctx orig
      (some (val j)) hi := by
  obtain ⟨-, hli, hri⟩ := AbsD_node_inv inv.habs
  obtain ⟨hij, hrl, hrr⟩ := AbsD_node_inv hri
  obtain ⟨hjk, hkl, hkr⟩ := AbsD_node_inv hrr
  have nd := nodup_parts (inv.horig ▸ inv.hnd)
  obtain ⟨ndA, ndB, ndC, dAB, dAC, dBC⟩ := nd
  have hiA : (i : Nat) ∈ nodesM (FTree.node l i (.node rl j (.node rrl k rrr))) :=
    mem_nodesM.2 mem_nodes_self
  have hjA : (j : Nat) ∈ nodesM (FTree.node l i (.node rl j (.node rrl k rrr))) :=
    mem_nodesM.2 (mem_nodes_right mem_nodes_self)
  have hkA : (k : Nat) ∈ nodesM (FTree.node l i (.node rl j (.node rrl k rrr))) :=
    mem_nodesM.2 (mem_nodes_right (mem_nodes_right mem_nodes_self))
  have htmpA : TMP ∉ nodesM (FTree.node l i (.node rl j (.node rrl k rrr))) := fun hm =>
    inv.htmp (inv.horig ▸ Multiset.mem_add.2 (Or.inl (Multiset.mem_add.2 (Or.inl hm))))
  have htmpB : TMP ∉ spineM Lctx := fun hm =>
    inv.htmp (inv.horig ▸ Multiset.mem_add.2 (Or.inl (Multiset.mem_add.2 (Or.inr hm))))
  have htmpC : TMP ∉ spineM Rctx := fun hm =>
    inv.htmp (inv.horig ▸ Multiset.mem_add.2 (Or.inr hm))
  have hrefP : refP = TMP ∨ refP ∈ spineM Lctx := Spine_last inv.hL
  have hPA : ∀ x, x ∈ (FTree.node l i (.node rl j (.node rrl k rrr))).nodes →
      x ≠ refP := by
    intro x hx
    rcases hrefP with rfl | hmem
    · exact fun he => htmpA (he ▸ mem_nodesM.2 hx)
    · exact fun he => dAB x (mem_nodesM.2 hx) (he ▸ hmem)
  have hrefPC : refP ∉ spineM Rctx := by
    rcases hrefP with rfl | hmem
    · exact htmpC
    · exact fun hm => dBC refP hmem hm
  have hiTMP : i ≠ TMP := fun he => inv.htmp (he ▸ inv.horig ▸
    Multiset.mem_add.2 (Or.inl (Multiset.mem_add.2 (Or.inl hiA))))
  have hjTMP : j ≠ TMP := fun he => inv.htmp (he ▸ inv.horig ▸
    Multiset.mem_add.2 (Or.inl (Multiset.mem_add.2 (Or.inl hjA))))
  have hiB : i ∉ spineM Lctx := dAB i hiA
  have hjB : j ∉ spineM Lctx := dAB j hjA
  have hiC : i ∉ spineM Rctx := dAC i hiA
  have hjC : j ∉ spineM Rctx := dAC j hjA
  -- distinctness inside the middle tree
  have hndM : (FTree.node l i (.node rl j (.node rrl k rrr))).nodes.Nodup := by
    have := ndA
    rwa [nodesM, Multiset.coe_nodup] at this
  obtain ⟨ndl, ndr1, hil, hir1, hdlr1⟩ := nodup_node hndM
  obtain ⟨ndrl, ndr2, hjrl, hjr2, hdr12⟩ := nodup_node ndr1
  have hij_ne : i ≠ j := fun he => hir1 (he ▸ mem_nodes_self)
  have hji_ne : j ≠ i := fun he => hij_ne he.symm
  have hirr : i ∉ (FTree.node rrl k rrr).nodes := fun hm => hir1 (mem_nodes_right hm)
  have hjrr : j ∉ (FTree.node rrl k rrr).nodes := hjr2
  have hirl : i ∉ rl.nodes := fun hm => hir1 (mem_nodes_left hm)
  have hPrr : ∀ x, x ∈ (FTree.node rrl k rrr).nodes → x ≠ refP := fun x hx =>
    hPA x (mem_nodes_right (mem_nodes_right hx))
  have hPl : ∀ x, x ∈ l.nodes → x ≠ refP := fun x hx => hPA x (mem_nodes_left hx)
  have hPrl : ∀ x, x ∈ rl.nodes → x ≠ refP := fun x hx =>
    hPA x (mem_nodes_right (mem_nodes_left hx))
  have hPi : i ≠ refP := hPA i mem_nodes_self
  have hPj : j ≠ refP := hPA j (mem_nodes_right mem_nodes_self)
  -- the two link reads
  have hr2 : ((updD (updD h i (fun t => t.setChild 0 ((h j).child 1))) j
      (fun t => t.setChild 1 (some i))) j).child 0 = some k := by
    rw [updD_same, setChild1_child0, updD_other _ _ _ j hji_ne]
    exact hjk
  have hr3 : ((updD (updD (updD h i (fun t => t.setChild 0 ((h j).child 1))) j
      (fun t => t.setChild 1 (some i))) refP
      (fun t => t.setChild 0 (some j))) j).child 0 = some k := by
    rw [updD_other _ _ _ j hPj]
    exact hr2
  refine ⟨hr2, hr3, ?_⟩
  -- bst facts
  have hbstparts := inv.hbst
  simp only [bstOk, Bool.and_eq_true] at hbstparts
  obtain ⟨⟨hbi, hbl⟩, ⟨hbj, hbrl⟩, hbrr2⟩ := hbstparts
  have hbrr : bstOk val (some (val j)) hi (.node rrl k rrr) = true := by
    simp only [bstOk, Bool.and_eq_true]
    exact hbrr2
  have hbr1 : bstOk val (some (val i)) hi (.node rl j (.node rrl k rrr)) = true := by
    simp only [bstOk, Bool.and_eq_true]
    exact ⟨⟨hbj, hbrl⟩, hbrr2⟩
  have hKparts := inv.hK
  simp only [inbB, Bool.and_eq_true] at hKparts
  refine
    { habs := ?_, hbst := hbrr, hK := ?_, hm := ?_, hL := ?_, hR := ?_,
      hnd := inv.hnd, htmp := inv.htmp, horig := ?_, hframe := ?_ }
  · -- middle tree (rrl, k, rrr), untouched by the three writes
    refine AbsD_frame _ _ _ refP _ ?_ (fun hm => hPrr _ hm rfl)
    refine AbsD_frame _ _ _ j _ ?_ hjrr
    refine AbsD_frame _ _ _ i _ ?_ hirr
    exact AbsD.node hkl hkr
  · simp only [inbB, Bool.and_eq_true, decide_eq_true_eq]
    exact ⟨hjK, hKparts.2⟩
  · obtain ⟨m, hmm, hval⟩ := inv.hm
    have hm1 := (B6Tree.bst_zero_side val K hbl hbr1 hmm hval).1 hiK
    exact ⟨m, (B6Tree.bst_zero_side val K hbrl hbrr hm1 hval).1 hjK, hval⟩
  · -- left spine: frame the two rotation writes, write the hole, append
    have s1 : Spine (updD h i (fun t => t.setChild 0 ((h j).child 1))) 0 TMP refP Lctx :=
      Spine_frame Lctx h 0 TMP refP i _ inv.hL hiB (fun he => absurd he hiTMP)
    have s2 : Spine (updD (updD h i (fun t => t.setChild 0 ((h j).child 1))) j
        (fun t => t.setChild 1 (some i))) 0 TMP refP Lctx :=
      Spine_frame Lctx _ 0 TMP refP j _ s1 hjB (fun he => absurd he hjTMP)
    have s3 : Spine (updD (updD (updD h i (fun t => t.setChild 0 ((h j).child 1))) j
        (fun t => t.setChild 1 (some i))) refP (fun t => t.setChild 0 (some j)))
        0 TMP refP Lctx := by
      refine Spine_write_hole Lctx _ 0 TMP refP (some j) s2 (Or.inl rfl) ?_
      rw [Multiset.nodup_cons]
      exact ⟨htmpB, ndB⟩
    refine Spine_append Lctx _ 0 TMP refP j (.node l i rl) s3 ?_ ?_
    · rw [updD_same]
      exact setChild_child_same _ 0 (some j) (Or.inl rfl)
    · -- the rotated pair (node l i rl) hangs from j's B6_PREV side
      have hjprev : ((updD (updD (updD h i (fun t => t.setChild 0 ((h j).child 1))) j
          (fun t => t.setChild 1 (some i))) refP (fun t => t.setChild 0 (some j))) j).child 1
          = some i := by
        rw [updD_other _ _ _ j hPj, updD_same]
        exact setChild_child_same _ 1 (some i) (Or.inr rfl)
      simp only [show (0 ^^^ 1 : Nat) = 1 from rfl]
      rw [hjprev]
      refine AbsD.node ?_ ?_
      · -- i's B6_PREV side: still l
        have hiprev : ((updD (updD (updD h i (fun t => t.setChild 0 ((h j).child 1))) j
            (fun t => t.setChild 1 (some i))) refP (fun t => t.setChild 0 (some j))) i).prev
            = (h i).prev := by
          rw [updD_other _ _ _ i hPi, updD_other _ _ _ i hji_ne.symm, updD_same]
          rfl
        rw [hiprev]
        refine AbsD_frame _ _ _ refP _ ?_ (fun hm => hPl _ hm rfl)
        refine AbsD_frame _ _ _ j _ ?_ (fun hm => hdlr1 _ hm mem_nodes_self)
        exact AbsD_frame _ _ _ i _ hli hil
      · -- i's B6_NEXT side: now rl (the rotation write)
        have hinext : ((updD (updD (updD h i (fun t => t.setChild 0 ((h j).child 1))) j
            (fun t => t.setChild 1 (some i))) refP (fun t => t.setChild 0 (some j))) i).next
            = (h j).child 1 := by
          rw [updD_other _ _ _ i hPi, updD_other _ _ _ i hji_ne.symm, updD_same]
          rfl
        rw [hinext]
        refine AbsD_frame _ _ _ refP _ ?_ (fun hm => hPrl _ hm rfl)
        refine AbsD_frame _ _ _ j _ ?_ hjrl
        exact AbsD_frame _ _ _ i _ hrl hirl
  · -- right spine untouched
    have s1 : Spine (updD h i (fun t => t.setChild 0 ((h j).child 1))) 1 TMP refN Rctx :=
      Spine_frame Rctx h 1 TMP refN i _ inv.hR hiC (fun he => absurd he hiTMP)
    have s2 : Spine (updD (updD h i (fun t => t.setChild 0 ((h j).child 1))) j
        (fun t => t.setChild 1 (some i))) 1 TMP refN Rctx :=
      Spine_frame Rctx _ 1 TMP refN j _ s1 hjC (fun he => absurd he hjTMP)
    exact Spine_frame Rctx _ 1 TMP refN refP _ s2 hrefPC
      (fun _ t => setChild0_child1 t (some j))
  · rw [inv.horig, spineM_append]
    simp only [nodesM_node, spineM, add_zero]
    simp only [← Multiset.singleton_add]
    abel
  · intro jj hjj hjt
    have hjjP : jj ≠ refP := by
      rcases hrefP with rfl | hmem
      · exact hjt
      · exact fun he => hjj (he ▸ inv.horig ▸
          Multiset.mem_add.2 (Or.inl (Multiset.mem_add.2 (Or.inr hmem))))
    have hjji : jj ≠ i := fun he => hjj (he ▸ inv.horig ▸
      Multiset.mem_add.2 (Or.inl (Multiset.mem_add.2 (Or.inl hiA))))
    have hjjj : jj ≠ j := fun he => hjj (he ▸ inv.horig ▸
      Multiset.mem_add.2 (Or.inl (Multiset.mem_add.2 (Or.inl hjA))))
    rw [updD_other _ _ _ jj hjjP, updD_other _ _ _ jj hjjj, updD_other _ _ _ jj hjji]
    exact inv.hframe jj hjj hjt

end B6Splay

namespace B6Splay

open B6Tree (FTree bstOk inbB signOf mem_nodes_self mem_nodes_left mem_nodes_right)

/-- Mirror of `step_link_next`: the plain link step descending toward
`B6_PREV` moves the root and its `B6_NEXT` subtree into the right spine. -/
theorem step_link_prev (val : Nat → Int) (K : Int) (h h0 : DHeap)
    (i refP refN : Nat) (ll lr r : FTree) (j : Nat)
    (Lctx Rctx : List (Nat × FTree)) (orig : Multiset Nat) (lo hi : Option Int)
    (inv : LoopInv val K h h0 i refP refN (.node (.node ll j lr) i r) Lctx Rctx orig lo hi)
    (hiK : K < val i) :
    LoopInv val K (updD h refN (fun t => t.setChild 1 (some i)))
      h0 j refP i (.node ll j lr) Lctx (Rctx ++ [(i, r)]) orig lo (some (val i)) ∧
    (updD h refN (fun t => t.setChild 1 (some i)) i).child 1 = some j := by
  obtain ⟨-, hli, hri⟩ := AbsD_node_inv inv.habs
  obtain ⟨hij, hjl, hjr⟩ := AbsD_node_inv hli
  have nd := nodup_parts (inv.horig ▸ inv.hnd)
  obtain ⟨ndA, ndB, ndC, dAB, dAC, dBC⟩ := nd
  have hiA : (i : Nat) ∈ nodesM (FTree.node (.node ll j lr) i r) :=
    mem_nodesM.2 mem_nodes_self
  have hjA : (j : Nat) ∈ nodesM (FTree.node (.node ll j lr) i r) :=
    mem_nodesM.2 (mem_nodes_left mem_nodes_self)
  have htmpA : TMP ∉ nodesM (FTree.node (.node ll j lr) i r) := fun hm =>
    inv.htmp (inv.horig ▸ Multiset.mem_add.2 (Or.inl (Multiset.mem_add.2 (Or.inl hm))))
  have htmpB : TMP ∉ spineM Lctx := fun hm =>
    inv.htmp (inv.horig ▸ Multiset.mem_add.2 (Or.inl (Multiset.mem_add.2 (Or.inr hm))))
  have htmpC : TMP ∉ spineM Rctx := fun hm =>
    inv.htmp (inv.horig ▸ Multiset.mem_add.2 (Or.inr hm))
  have hrefN : refN = TMP ∨ refN ∈ spineM Rctx := Spine_last inv.hR
  have hrefNA : refN ∉ nodesM (FTree.node (.node ll j lr) i r) := by
    rcases hrefN with rfl | hmem
    · exact htmpA
    · exact fun hm => dAC refN hm hmem
  have hrefNB : refN ∉ spineM Lctx := by
    rcases hrefN with rfl | hmem
    · exact htmpB
    · exact fun hm => dBC refN hm hmem
  have hinotN : i ≠ refN := by
    rcases hrefN with rfl | hmem
    · exact fun he => htmpA (he ▸ hiA)
    · exact fun he => dAC i hiA (he ▸ hmem)
  have hread : (updD h refN (fun t => t.setChild 1 (some i)) i).child 1 = some j := by
    rw [updD_other _ _ _ i hinotN]
    exact hij
  refine ⟨?_, hread⟩
  have hbstparts := inv.hbst
  simp only [bstOk, Bool.and_eq_true] at hbstparts
  obtain ⟨⟨hbi, hbl2⟩, hbr⟩ := hbstparts
  have hbl : bstOk val lo (some (val i)) (.node ll j lr) = true := by
    simp only [bstOk, Bool.and_eq_true]
    exact hbl2
  have hKparts := inv.hK
  simp only [inbB, Bool.and_eq_true] at hKparts
  refine
    { habs := ?_, hbst := hbl, hK := ?_, hm := ?_, hL := ?_, hR := ?_,
      hnd := inv.hnd, htmp := inv.htmp, horig := ?_, hframe := ?_ }
  · refine AbsD_frame _ _ h refN _ (AbsD.node hjl hjr) ?_
    exact fun hm => hrefNA (mem_nodes_left hm)
  · simp only [inbB, Bool.and_eq_true, decide_eq_true_eq]
    exact ⟨hKparts.1, hiK⟩
  · obtain ⟨m, hmm, hval⟩ := inv.hm
    exact ⟨m, (B6Tree.bst_zero_side val K hbl hbr hmm hval).2 hiK, hval⟩
  · exact Spine_frame Lctx h 0 TMP refP refN _ inv.hL hrefNB
      (fun _ t => setChild1_child0 t (some i))
  · have s1 : Spine (updD h refN (fun t => t.setChild 1 (some i))) 1 TMP refN Rctx := by
      refine Spine_write_hole Rctx h 1 TMP refN (some i) inv.hR (Or.inr rfl) ?_
      rw [Multiset.nodup_cons]
      exact ⟨htmpC, ndC⟩
    refine Spine_append Rctx _ 1 TMP refN i r s1 ?_ ?_
    · rw [updD_same]
      exact setChild_child_same _ 1 (some i) (Or.inr rfl)
    · simp only [show (1 ^^^ 1 : Nat) = 0 from rfl]
      rw [updD_other _ _ _ i hinotN]
      refine AbsD_frame r _ h refN _ hri ?_
      exact fun hm => hrefNA (mem_nodes_right hm)
  · rw [inv.horig, spineM_append]
    simp only [nodesM_node, spineM, add_zero]
    simp only [← Multiset.singleton_add]
    abel
  · intro jj hjj hjt
    have hjjN : jj ≠ refN := by
      rcases hrefN with rfl | hmem
      · exact hjt
      · exact fun he => hjj (he ▸ inv.horig ▸ Multiset.mem_add.2 (Or.inr hmem))
    rw [updD_other _ _ _ jj hjjN]
    exact inv.hframe jj hjj hjt

/-- Mirror of `step_zigzig_next`: zig-zig descending toward `B6_PREV`. -/
theorem step_zigzig_prev (val : Nat → Int) (K : Int) (h h0 : DHeap)
    (i refP refN : Nat) (lll llr jr r : FTree) (j k : Nat)
    (Lctx Rctx : List (Nat × FTree)) (orig : Multiset Nat) (lo hi : Option Int)
    (inv : LoopInv val K h h0 i refP refN
      (.node (.node (.node lll k llr) j jr) i r) Lctx Rctx orig lo hi)
    (hiK : K < val i) (hjK : K < val j) :
    ((updD (updD h i (fun t => t.setChild 1 ((h j).child 0))) j
        (fun t => t.setChild 0 (some i))) j).child 1 = some k ∧
    ((updD (updD (updD h i (fun t => t.setChild 1 ((h j).child 0))) j
        (fun t => t.setChild 0 (some i))) refN
        (fun t => t.setChild 1 (some j))) j).child 1 = some k ∧
    LoopInv val K
      (updD (updD (updD h i (fun t => t.setChild 1 ((h j).child 0))) j
        (fun t => t.setChild 0 (some i))) refN (fun t => t.setChild 1 (some j)))
      h0 k refP j (.node lll k llr) Lctx (Rctx ++ [(j, .node jr i r)]) orig
      lo (some (val j)) := by
  obtain ⟨-, hli, hri⟩ := AbsD_node_inv inv.habs
  obtain ⟨hij, hjl, hjr2⟩ := AbsD_node_inv hli
  obtain ⟨hjk, hkl, hkr⟩ := AbsD_node_inv hjl
  have nd := nodup_parts (inv.horig ▸ inv.hnd)
  obtain ⟨ndA, ndB, ndC, dAB, dAC, dBC⟩ := nd
  have hiA : (i : Nat) ∈ nodesM (FTree.node (.node (.node lll k llr) j jr) i r) :=
    mem_nodesM.2 mem_nodes_self
  have hjA : (j : Nat) ∈ nodesM (FTree.node (.node (.node lll k llr) j jr) i r) :=
    mem_nodesM.2 (mem_nodes_left mem_nodes_self)
  have hkA : (k : Nat) ∈ nodesM (FTree.node (.node (.node lll k llr) j jr) i r) :=
    mem_nodesM.2 (mem_nodes_left (mem_nodes_left mem_nodes_self))
  have htmpA : TMP ∉ nodesM (FTree.node (.node (.node lll k llr) j jr) i r) := fun hm =>
    inv.htmp (inv.horig ▸ Multiset.mem_add.2 (Or.inl (Multiset.mem_add.2 (Or.inl hm))))
  have htmpB : TMP ∉ spineM Lctx := fun hm =>
    inv.htmp (inv.horig ▸ Multiset.mem_add.2 (Or.inl (Multiset.mem_add.2 (Or.inr hm))))
  have htmpC : TMP ∉ spineM Rctx := fun hm =>
    inv.htmp (inv.horig ▸ Multiset.mem_add.2 (Or.inr hm))
  have hrefN : refN = TMP ∨ refN ∈ spineM Rctx := Spine_last inv.hR
  have hNA : ∀ x, x ∈ (FTree.node (.node (.node lll k llr) j jr) i r).nodes →
      x ≠ refN := by
    intro x hx
    rcases hrefN with rfl | hmem
    · exact fun he => htmpA (he ▸ mem_nodesM.2 hx)
    · exact fun he => dAC x (mem_nodesM.2 hx) (he ▸ hmem)
  have hrefNB : refN ∉ spineM Lctx := by
    rcases hrefN with rfl | hmem
    · exact htmpB
    · exact fun hm => dBC refN hm hmem
  have hiTMP : i ≠ TMP := fun he => inv.htmp (he ▸ inv.horig ▸
    Multiset.mem_add.2 (Or.inl (Multiset.mem_add.2 (Or.inl hiA))))
  have hjTMP : j ≠ TMP := fun he => inv.htmp (he ▸ inv.horig ▸
    Multiset.mem_add.2 (Or.inl (Multiset.mem_add.2 (Or.inl hjA))))
  have hiB : i ∉ spineM Lctx := dAB i hiA
  have hjB : j ∉ spineM Lctx := dAB j hjA
  have hiC : i ∉ spineM Rctx := dAC i hiA
  have hjC : j ∉ spineM Rctx := dAC j hjA
  have hndM : (FTree.node (.node (.node lll k llr) j jr) i r).nodes.Nodup := by
    have := ndA
    rwa [nodesM, Multiset.coe_nodup] at this
  obtain ⟨ndl1, ndr, hil1, hir, hdl1r⟩ := nodup_node hndM
  obtain ⟨ndl2, ndjr, hjl2, hjjr, hdl2jr⟩ := nodup_node ndl1
  have hij_ne : i ≠ j := fun he => hil1 (he ▸ mem_nodes_self)
  have hji_ne : j ≠ i := fun he => hij_ne he.symm
  have hill : i ∉ (FTree.node lll k llr).nodes := fun hm => hil1 (mem_nodes_left hm)
  have hjll : j ∉ (FTree.node lll k llr).nodes := hjl2
  have hijr : i ∉ jr.nodes := fun hm => hil1 (mem_nodes_right hm)
  have hNll : ∀ x, x ∈ (FTree.node lll k llr).nodes → x ≠ refN := fun x hx =>
    hNA x (mem_nodes_left (mem_nodes_left hx))
  have hNr : ∀ x, x ∈ r.nodes → x ≠ refN := fun x hx => hNA x (mem_nodes_right hx)
  have hNjr : ∀ x, x ∈ jr.nodes → x ≠ refN := fun x hx =>
    hNA x (mem_nodes_left (mem_nodes_right hx))
  have hNi : i ≠ refN := hNA i mem_nodes_self
  have hNj : j ≠ refN := hNA j (mem_nodes_left mem_nodes_self)
  have hr2 : ((updD (updD h i (fun t => t.setChild 1 ((h j).child 0))) j
      (fun t => t.setChild 0 (some i))) j).child 1 = some k := by
    rw [updD_same, setChild0_child1, updD_other _ _ _ j hji_ne]
    exact hjk
  have hr3 : ((updD (updD (updD h i (fun t => t.setChild 1 ((h j).child 0))) j
      (fun t => t.setChild 0 (some i))) refN
      (fun t => t.setChild 1 (some j))) j).child 1 = some k := by
    rw [updD_other _ _ _ j hNj]
    exact hr2
  refine ⟨hr2, hr3, ?_⟩
  have hbstparts := inv.hbst
  simp only [bstOk, Bool.and_eq_true] at hbstparts
  obtain ⟨⟨hbi, ⟨⟨hbj, hbll2⟩, hbjr⟩⟩, hbr⟩ := hbstparts
  have hbll : bstOk val lo (some (val j)) (.node lll k llr) = true := by
    simp only [bstOk, Bool.and_eq_true]
    exact hbll2
  have hbl1 : bstOk val lo (some (val i)) (.node (.node lll k llr) j jr) = true := by
    simp only [bstOk, Bool.and_eq_true]
    exact ⟨⟨hbj, hbll2⟩, hbjr⟩
  have hKparts := inv.hK
  simp only [inbB, Bool.and_eq_true] at hKparts
  refine
    { habs := ?_, hbst := hbll, hK := ?_, hm := ?_, hL := ?_, hR := ?_,
      hnd := inv.hnd, htmp := inv.htmp, horig := ?_, hframe := ?_ }
  · refine AbsD_frame _ _ _ refN _ ?_ (fun hm => hNll _ hm rfl)
    refine AbsD_frame _ _ _ j _ ?_ hjll
    refine AbsD_frame _ _ _ i _ ?_ hill
    exact AbsD.node hkl hkr
  · simp only [inbB, Bool.and_eq_true, decide_eq_true_eq]
    exact ⟨hKparts.1, hjK⟩
  · obtain ⟨m, hmm, hval⟩ := inv.hm
    have hm1 := (B6Tree.bst_zero_side val K hbl1 hbr hmm hval).2 hiK
    exact ⟨m, (B6Tree.bst_zero_side val K hbll hbjr hm1 hval).2 hjK, hval⟩
  · have s1 : Spine (updD h i (fun t => t.setChild 1 ((h j).child 0))) 0 TMP refP Lctx :=
      Spine_frame Lctx h 0 TMP refP i _ inv.hL hiB (fun he => absurd he hiTMP)
    have s2 : Spine (updD (updD h i (fun t => t.setChild 1 ((h j).child 0))) j
        (fun t => t.setChild 0 (some i))) 0 TMP refP Lctx :=
      Spine_frame Lctx _ 0 TMP refP j _ s1 hjB (fun he => absurd he hjTMP)
    exact Spine_frame Lctx _ 0 TMP refP refN _ s2 hrefNB
      (fun _ t => setChild1_child0 t (some j))
  · have s1 : Spine (updD h i (fun t => t.setChild 1 ((h j).child 0))) 1 TMP refN Rctx :=
      Spine_frame Rctx h 1 TMP refN i _ inv.hR hiC (fun he => absurd he hiTMP)
    have s2 : Spine (updD (updD h i (fun t => t.setChild 1 ((h j).child 0))) j
        (fun t => t.setChild 0 (some i))) 1 TMP refN Rctx :=
      Spine_frame Rctx _ 1 TMP refN j _ s1 hjC (fun he => absurd he hjTMP)
    have s3 : Spine (updD (updD (updD h i (fun t => t.setChild 1 ((h j).child 0))) j
        (fun t => t.setChild 0 (some i))) refN (fun t => t.setChild 1 (some j)))
        1 TMP refN Rctx := by
      refine Spine_write_hole Rctx _ 1 TMP refN (some j) s2 (Or.inr rfl) ?_
      rw [Multiset.nodup_cons]
      exact ⟨htmpC, ndC⟩
    refine Spine_append Rctx _ 1 TMP refN j (.node jr i r) s3 ?_ ?_
    · rw [updD_same]
      exact setChild_child_same _ 1 (some j) (Or.inr rfl)
    · have hjnext : ((updD (updD (updD h i (fun t => t.setChild 1 ((h j).child 0))) j
          (fun t => t.setChild 0 (some i))) refN (fun t => t.setChild 1 (some j))) j).child 0
          = some i := by
        rw [updD_other _ _ _ j hNj, updD_same]
        exact setChild_child_same _ 0 (some i) (Or.inl rfl)
      simp only [show (1 ^^^ 1 : Nat) = 0 from rfl]
      rw [hjnext]
      refine AbsD.node ?_ ?_
      · have hiprev : ((updD (updD (updD h i (fun t => t.setChild 1 ((h j).child 0))) j
            (fun t => t.setChild 0 (some i))) refN (fun t => t.setChild 1 (some j))) i).prev
            = (h j).child 0 := by
          rw [updD_other _ _ _ i hNi, updD_other _ _ _ i hji_ne.symm, updD_same]
          rfl
        rw [hiprev]
        refine AbsD_frame _ _ _ refN _ ?_ (fun hm => hNjr _ hm rfl)
        refine AbsD_frame _ _ _ j _ ?_ hjjr
        exact AbsD_frame _ _ _ i _ hjr2 hijr
      · have hinext : ((updD (updD (updD h i (fun t => t.setChild 1 ((h j).child 0))) j
            (fun t => t.setChild 0 (some i))) refN (fun t => t.setChild 1 (some j))) i).next
            = (h i).next := by
          rw [updD_other _ _ _ i hNi, updD_other _ _ _ i hji_ne.symm, updD_same]
          rfl
        rw [hinext]
        refine AbsD_frame _ _ _ refN _ ?_ (fun hm => hNr _ hm rfl)
        refine AbsD_frame _ _ _ j _ ?_ (hdl1r j mem_nodes_self)
        exact AbsD_frame _ _ _ i _ hri hir
  · rw [inv.horig, spineM_append]
    simp only [nodesM_node, spineM, add_zero]
    simp only [← Multiset.singleton_add]
    abel
  · intro jj hjj hjt
    have hjjN : jj ≠ refN := by
      rcases hrefN with rfl | hmem
      · exact hjt
      · exact fun he => hjj (he ▸ inv.horig ▸ Multiset.mem_add.2 (Or.inr hmem))
    have hjji : jj ≠ i := fun he => hjj (he ▸ inv.horig ▸
      Multiset.mem_add.2 (Or.inl (Multiset.mem_add.2 (Or.inl hiA))))
    have hjjj : jj ≠ j := fun he => hjj (he ▸ inv.horig ▸
      Multiset.mem_add.2 (Or.inl (Multiset.mem_add.2 (Or.inl hjA))))
    rw [updD_other _ _ _ jj hjjN, updD_other _ _ _ jj hjjj, updD_other _ _ _ jj hjji]
    exact inv.hframe jj hjj hjt

end B6Splay

namespace B6Splay

open B6Tree (FTree bstOk inbB signOf mem_nodes_self mem_nodes_left mem_nodes_right)

/-- The `do_splay` loop, started on a well-formed middle tree that contains
a node ranked equal to the search key, terminates with comparison result 0
on a node of the original tree ranked equal to the key, provided the fuel
covers the tree size. -/
theorem doSplayLoop_finds (val : Nat → Int) (K : Int) (cmp : Nat → Int)
    (hcmp : ∀ n, n ≠ SHEAD → n ≠ STAIL → cmp n = signOf (val n - K))
    (hH : val SHEAD < K) (hT : K < val STAIL) :
    ∀ (fuel : Nat) (h h0 : DHeap) (root refP refN : Nat) (M : FTree)
      (Lctx Rctx : List (Nat × FTree)) (orig : Multiset Nat) (lo hi : Option Int)
      (calls : List Nat),
      LoopInv val K h h0 root refP refN M Lctx Rctx orig lo hi →
      M.size ≤ fuel →
      ∃ M2 Lctx2 Rctx2 lo2 hi2,
        (doSplayLoop cmp fuel h root refP refN calls).res = 0 ∧
        val (doSplayLoop cmp fuel h root refP refN calls).root = K ∧
        LoopInv val K (doSplayLoop cmp fuel h root refP refN calls).heap h0
          (doSplayLoop cmp fuel h root refP refN calls).root
          (doSplayLoop cmp fuel h root refP refN calls).refP
          (doSplayLoop cmp fuel h root refP refN calls).refN
          M2 Lctx2 Rctx2 orig lo2 hi2 := by
  intro fuel
  induction fuel with
  | zero =>
    intro h h0 root refP refN M Lctx Rctx orig lo hi calls inv hsz
    obtain ⟨l, r, rfl⟩ := AbsD_some_node inv.habs
    exfalso
    simp only [FTree.size] at hsz
    omega
  | succ f ih =>
    intro h h0 root refP refN M Lctx Rctx orig lo hi calls inv hsz
    obtain ⟨l, r, rfl⟩ := AbsD_some_node inv.habs
    have hbst0 := inv.hbst
    simp only [bstOk, Bool.and_eq_true] at hbst0
    obtain ⟨⟨hbroot, hbl⟩, hbr⟩ := hbst0
    obtain ⟨m0, hm0, hval0⟩ := inv.hm
    obtain ⟨-, hli, hri⟩ := AbsD_node_inv inv.habs
    rcases splayCmp_trichotomy cmp val K hcmp hH hT root with
      ⟨hc, hlt⟩ | ⟨hc, heq, -, -⟩ | ⟨hc, hgt⟩
    · -- descend toward B6_NEXT
      have hmr : m0 ∈ r.nodes := (B6Tree.bst_zero_side val K hbl hbr hm0 hval0).1 hlt
      cases r with
      | leaf => exact absurd hmr (List.not_mem_nil m0)
      | node rl j rr =>
        obtain ⟨hij, hjl, hjr⟩ := AbsD_node_inv hri
        have hch : (h root).child 0 = some j := hij
        have hopp : B6Tree.toDirection (splayCmp cmp root).1 = 1 := by rw [hc]; decide
        have hbr2 := hbr
        simp only [bstOk, Bool.and_eq_true] at hbr2
        obtain ⟨⟨hbj, hbrl⟩, hbrr⟩ := hbr2
        rw [doSplayLoop]
        dsimp only
        rw [if_neg (show ¬(splayCmp cmp root).1 = 0 from by rw [hc]; decide)]
        rw [hopp]
        simp only [show (1 ^^^ 1 : Nat) = 0 from rfl]
        rw [hch]
        dsimp only
        rcases splayCmp_trichotomy cmp val K hcmp hH hT j with
          ⟨hc2, hlt2⟩ | ⟨hc2, heq2, -, -⟩ | ⟨hc2, hgt2⟩
        · -- zig-zig
          have hmrr : m0 ∈ rr.nodes :=
            (B6Tree.bst_zero_side val K hbrl hbrr hmr hval0).1 hlt2
          cases rr with
          | leaf => exact absurd hmrr (List.not_mem_nil m0)
          | node rrl k rrr =>
            rw [if_pos (show (splayCmp cmp root).1 = (splayCmp cmp j).1 from by
              rw [hc, hc2])]
            obtain ⟨hr2, hr3, inv'⟩ := step_zigzig_next val K h h0 root refP refN
              l rl rrl rrr j k Lctx Rctx orig lo hi inv hlt hlt2
            rw [hr2]
            dsimp only
            simp only [if_pos (show (1 : Nat) = SPREV from rfl)]
            rw [hr3]
            refine ih _ _ _ _ _ _ _ _ orig _ _ _ inv' ?_
            simp only [FTree.size] at hsz ⊢
            omega
        · -- plain link (child compares equal)
          rw [if_neg (show ¬(splayCmp cmp root).1 = (splayCmp cmp j).1 from by
            rw [hc, hc2]; decide)]
          simp only [if_pos (show (1 : Nat) = SPREV from rfl)]
          obtain ⟨inv', hread⟩ := step_link_next val K h h0 root refP refN
            l rl rr j Lctx Rctx orig lo hi inv hlt
          rw [hread]
          refine ih _ _ _ _ _ _ _ _ orig _ _ _ inv' ?_
          simp only [FTree.size] at hsz ⊢
          omega
        · -- plain link (child compares greater)
          rw [if_neg (show ¬(splayCmp cmp root).1 = (splayCmp cmp j).1 from by
            rw [hc, hc2]; decide)]
          simp only [if_pos (show (1 : Nat) = SPREV from rfl)]
          obtain ⟨inv', hread⟩ := step_link_next val K h h0 root refP refN
            l rl rr j Lctx Rctx orig lo hi inv hlt
          rw [hread]
          refine ih _ _ _ _ _ _ _ _ orig _ _ _ inv' ?_
          simp only [FTree.size] at hsz ⊢
          omega
    · -- match at the root
      rw [doSplayLoop]
      dsimp only
      rw [if_pos hc]
      exact ⟨FTree.node l root r, Lctx, Rctx, lo, hi, hc, heq, inv⟩
    · -- descend toward B6_PREV
      have hml : m0 ∈ l.nodes := (B6Tree.bst_zero_side val K hbl hbr hm0 hval0).2 hgt
      cases l with
      | leaf => exact absurd hml (List.not_mem_nil m0)
      | node ll j lr =>
        obtain ⟨hij, hjl, hjr⟩ := AbsD_node_inv hli
        have hch : (h root).child 1 = some j := hij
        have hopp : B6Tree.toDirection (splayCmp cmp root).1 = 0 := by rw [hc]; decide
        have hbl2 := hbl
        simp only [bstOk, Bool.and_eq_true] at hbl2
        obtain ⟨⟨hbj, hbll⟩, hblr⟩ := hbl2
        rw [doSplayLoop]
        dsimp only
        rw [if_neg (show ¬(splayCmp cmp root).1 = 0 from by rw [hc]; decide)]
        rw [hopp]
        simp only [show (0 ^^^ 1 : Nat) = 1 from rfl]
        rw [hch]
        dsimp only
        rcases splayCmp_trichotomy cmp val K hcmp hH hT j with
          ⟨hc2, hlt2⟩ | ⟨hc2, heq2, -, -⟩ | ⟨hc2, hgt2⟩
        · -- plain link (child compares less)
          rw [if_neg (show ¬(splayCmp cmp root).1 = (splayCmp cmp j).1 from by
            rw [hc, hc2]; decide)]
          simp only [if_neg (show ¬(0 : Nat) = SPREV from by decide)]
          obtain ⟨inv', hread⟩ := step_link_prev val K h h0 root refP refN
            ll lr r j Lctx Rctx orig lo hi inv hgt
          rw [hread]
          refine ih _ _ _ _ _ _ _ _ orig _ _ _ inv' ?_
          simp only [FTree.size] at hsz ⊢
          omega
        · -- plain link (child compares equal)
          rw [if_neg (show ¬(splayCmp cmp root).1 = (splayCmp cmp j).1 from by
            rw [hc, hc2]; decide)]
          simp only [if_neg (show ¬(0 : Nat) = SPREV from by decide)]
          obtain ⟨inv', hread⟩ := step_link_prev val K h h0 root refP refN
            ll lr r j Lctx Rctx orig lo hi inv hgt
          rw [hread]
          refine ih _ _ _ _ _ _ _ _ orig _ _ _ inv' ?_
          simp only [FTree.size] at hsz ⊢
          omega
        · -- zig-zig
          have hmll : m0 ∈ ll.nodes :=
            (B6Tree.bst_zero_side val K hbll hblr hml hval0).2 hgt2
          cases ll with
          | leaf => exact absurd hmll (List.not_mem_nil m0)
          | node lll k llr =>
            rw [if_pos (show (splayCmp cmp root).1 = (splayCmp cmp j).1 from by
              rw [hc, hc2])]
            obtain ⟨hr2, hr3, inv'⟩ := step_zigzig_prev val K h h0 root refP refN
              lll llr lr r j k Lctx Rctx orig lo hi inv hgt hgt2
            rw [hr2]
            dsimp only
            simp only [if_neg (show ¬(0 : Nat) = SPREV from by decide)]
            rw [hr3]
            refine ih _ _ _ _ _ _ _ _ orig _ _ _ inv' ?_
            simp only [FTree.size] at hsz ⊢
            omega

end B6Splay

namespace B6Splay

open B6Tree (FTree bstOk inbB signOf mem_nodes_self mem_nodes_left mem_nodes_right)

theorem updD_child0_of_set1 (h : DHeap) (x : Nat) (v : Option Nat) (y : Nat) :
    (updD h x (fun t => t.setChild 1 v) y).child 0 = (h y).child 0 := by
  by_cases hyx : y = x
  · subst hyx
    rw [updD_same]
    exact setChild1_child0 _ v
  · rw [updD_other _ _ _ y hyx]

theorem updD_child1_of_set0 (h : DHeap) (x : Nat) (v : Option Nat) (y : Nat) :
    (updD h x (fun t => t.setChild 0 v) y).child 1 = (h y).child 1 := by
  by_cases hyx : y = x
  · subst hyx
    rw [updD_same]
    exact setChild0_child1 _ v
  · rw [updD_other _ _ _ y hyx]

/-- The four reassembly writes at the end of `do_splay`, applied to any
state satisfying the loop invariant, produce a tree rooted at the loop's
final root holding exactly the original nodes. -/
theorem reassemble_of_inv (val : Nat → Int) (K : Int) (H h0 : DHeap)
    (R refP refN : Nat) (M : FTree) (Lctx Rctx : List (Nat × FTree))
    (orig : Multiset Nat) (lo hi : Option Int)
    (inv : LoopInv val K H h0 R refP refN M Lctx Rctx orig lo hi)
    (h1 h2 h3 h4 : DHeap)
    (e1 : h1 = updD H refP (fun t => t.setChild 0 ((H R).child 1)))
    (e2 : h2 = updD h1 refN (fun t => t.setChild 1 ((h1 R).child 0)))
    (e3 : h3 = updD h2 R (fun t => t.setChild 1 ((h2 TMP).child 0)))
    (e4 : h4 = updD h3 R (fun t => t.setChild 0 ((h3 TMP).child 1))) :
    ∃ M4, AbsD h4 (some R) M4 ∧ nodesM M4 = orig := by
  obtain ⟨l, r, rfl⟩ := AbsD_some_node inv.habs
  obtain ⟨-, hli, hri⟩ := AbsD_node_inv inv.habs
  have hli' : AbsD H ((H R).child 1) l := hli
  have hri' : AbsD H ((H R).child 0) r := hri
  obtain ⟨ndA, ndB, ndC, dAB, dAC, dBC⟩ := nodup_parts (inv.horig ▸ inv.hnd)
  have hRA : (R : Nat) ∈ nodesM (FTree.node l R r) := mem_nodesM.2 mem_nodes_self
  have htmpA : TMP ∉ nodesM (FTree.node l R r) := fun hm =>
    inv.htmp (inv.horig ▸ Multiset.mem_add.2 (Or.inl (Multiset.mem_add.2 (Or.inl hm))))
  have htmpB : TMP ∉ spineM Lctx := fun hm =>
    inv.htmp (inv.horig ▸ Multiset.mem_add.2 (Or.inl (Multiset.mem_add.2 (Or.inr hm))))
  have htmpC : TMP ∉ spineM Rctx := fun hm =>
    inv.htmp (inv.horig ▸ Multiset.mem_add.2 (Or.inr hm))
  have hndM : (FTree.node l R r).nodes.Nodup := by
    have := ndA
    rwa [nodesM, Multiset.coe_nodup] at this
  obtain ⟨ndl, ndr, hRl, hRr, hdlr⟩ := nodup_node hndM
  have hrefP : refP = TMP ∨ refP ∈ spineM Lctx := Spine_last inv.hL
  have hrefN : refN = TMP ∨ refN ∈ spineM Rctx := Spine_last inv.hR
  have hPA : refP ∉ nodesM (FTree.node l R r) := by
    rcases hrefP with rfl | hmem
    · exact htmpA
    · exact fun hm => dAB refP hm hmem
  have hNA : refN ∉ nodesM (FTree.node l R r) := by
    rcases hrefN with rfl | hmem
    · exact htmpA
    · exact fun hm => dAC refN hm hmem
  have hRT : R ≠ TMP := fun he => htmpA (he ▸ hRA)
  have hRP : R ≠ refP := fun he => hPA (he ▸ hRA)
  have hRN : R ≠ refN := fun he => hNA (he ▸ hRA)
  have hPC : refP ∉ spineM Rctx := by
    rcases hrefP with rfl | hmem
    · exact htmpC
    · exact fun hm => dBC refP hmem hm
  have hPl : refP ∉ l.nodes := fun hm => hPA (mem_nodesM.2 (mem_nodes_left hm))
  have hPr : refP ∉ r.nodes := fun hm => hPA (mem_nodesM.2 (mem_nodes_right hm))
  have hNl : refN ∉ l.nodes := fun hm => hNA (mem_nodesM.2 (mem_nodes_left hm))
  have hNr : refN ∉ r.nodes := fun hm => hNA (mem_nodesM.2 (mem_nodes_right hm))
  -- the left piece, assembled at h1
  have sL1 : Spine h1 0 TMP refP Lctx := by
    rw [e1]
    refine Spine_write_hole Lctx H 0 TMP refP ((H R).child 1) inv.hL (Or.inl rfl) ?_
    rw [Multiset.nodup_cons]
    exact ⟨htmpB, ndB⟩
  have hhole1 : (h1 refP).child 0 = (H R).child 1 := by
    rw [e1, updD_same]
    exact setChild_child_same _ 0 _ (Or.inl rfl)
  have hl1 : AbsD h1 ((H R).child 1) l := by
    rw [e1]
    exact AbsD_frame l _ H refP _ hli' hPl
  have aL1 : AbsD h1 ((h1 TMP).child 0) (assemble 0 Lctx l) := by
    refine Spine_assemble Lctx h1 0 TMP refP l sL1 (Or.inl rfl) ?_
    rw [hhole1]
    exact hl1
  -- the right piece, assembled at h2
  have sR1 : Spine h1 1 TMP refN Rctx := by
    rw [e1]
    exact Spine_frame Rctx H 1 TMP refN refP _ inv.hR hPC
      (fun _ t => setChild0_child1 t _)
  have sR2 : Spine h2 1 TMP refN Rctx := by
    rw [e2]
    refine Spine_write_hole Rctx h1 1 TMP refN ((h1 R).child 0) sR1 (Or.inr rfl) ?_
    rw [Multiset.nodup_cons]
    exact ⟨htmpC, ndC⟩
  have hread1R : (h1 R).child 0 = (H R).child 0 := by
    rw [e1, updD_other _ _ _ R hRP]
  have hhole2 : (h2 refN).child 1 = (h1 R).child 0 := by
    rw [e2, updD_same]
    exact setChild_child_same _ 1 _ (Or.inr rfl)
  have hr2' : AbsD h2 ((H R).child 0) r := by
    rw [e2]
    refine AbsD_frame r _ h1 refN _ ?_ hNr
    rw [e1]
    exact AbsD_frame r _ H refP _ hri' hPr
  have aR2 : AbsD h2 ((h2 TMP).child 1) (assemble 1 Rctx r) := by
    refine Spine_assemble Rctx h2 1 TMP refN r sR2 (Or.inr rfl) ?_
    rw [hhole2, hread1R]
    exact hr2'
  -- the left piece survives to h2
  have hNassL : refN ∉ (assemble 0 Lctx l).nodes := by
    intro hm
    have := mem_nodesM.2 hm
    rw [nodesM_assemble Lctx 0 l (Or.inl rfl)] at this
    rcases Multiset.mem_add.1 this with hmB | hml
    · rcases hrefN with rfl | hmem
      · exact htmpB hmB
      · exact dBC refN hmB hmem
    · exact hNl (mem_nodesM.1 hml)
  have hRassL : R ∉ (assemble 0 Lctx l).nodes := by
    intro hm
    have := mem_nodesM.2 hm
    rw [nodesM_assemble Lctx 0 l (Or.inl rfl)] at this
    rcases Multiset.mem_add.1 this with hmB | hml
    · exact dAB R hRA hmB
    · exact hRl (mem_nodesM.1 hml)
  have hRassR : R ∉ (assemble 1 Rctx r).nodes := by
    intro hm
    have := mem_nodesM.2 hm
    rw [nodesM_assemble Rctx 1 r (Or.inr rfl)] at this
    rcases Multiset.mem_add.1 this with hmC | hmr
    · exact dAC R hRA hmC
    · exact hRr (mem_nodesM.1 hmr)
  have hlink2 : (h2 TMP).child 0 = (h1 TMP).child 0 := by
    rw [e2]
    exact updD_child0_of_set1 h1 refN _ TMP
  have aL2 : AbsD h2 ((h2 TMP).child 0) (assemble 0 Lctx l) := by
    rw [hlink2, e2]
    exact AbsD_frame _ _ h1 refN _ aL1 hNassL
  -- both pieces survive the two root writes
  have aL4 : AbsD h4 ((h2 TMP).child 0) (assemble 0 Lctx l) := by
    rw [e4]
    refine AbsD_frame _ _ h3 R _ ?_ hRassL
    rw [e3]
    exact AbsD_frame _ _ h2 R _ aL2 hRassL
  have aR4 : AbsD h4 ((h2 TMP).child 1) (assemble 1 Rctx r) := by
    rw [e4]
    refine AbsD_frame _ _ h3 R _ ?_ hRassR
    rw [e3]
    exact AbsD_frame _ _ h2 R _ aR2 hRassR
  have hR3read : (h3 R).child 1 = (h2 TMP).child 0 := by
    rw [e3, updD_same]
    exact setChild_child_same _ 1 _ (Or.inr rfl)
  have hTMP3 : (h3 TMP).child 1 = (h2 TMP).child 1 := by
    rw [e3, updD_other _ _ _ TMP (fun he => hRT he.symm)]
  have hR4prev : (h4 R).prev = (h2 TMP).child 0 := by
    have : (h4 R).child 1 = (h2 TMP).child 0 := by
      rw [e4, updD_child1_of_set0, hR3read]
    exact this
  have hR4next : (h4 R).next = (h2 TMP).child 1 := by
    have : (h4 R).child 0 = (h2 TMP).child 1 := by
      rw [e4, updD_same]
      have := setChild_child_same (h3 R) 0 ((h3 TMP).child 1) (Or.inl rfl)
      rw [this, hTMP3]
    exact this
  refine ⟨.node (assemble 0 Lctx l) R (assemble 1 Rctx r), ?_, ?_⟩
  · refine AbsD.node ?_ ?_
    · rw [hR4prev]
      exact aL4
    · rw [hR4next]
      exact aR4
  · rw [inv.horig, nodesM_node, nodesM_node,
      nodesM_assemble Lctx 0 l (Or.inl rfl), nodesM_assemble Rctx 1 r (Or.inr rfl)]
    simp only [← Multiset.singleton_add]
    abel

end B6Splay

namespace B6Splay

open B6Tree (FTree bstOk inbB signOf mem_nodes_self mem_nodes_left mem_nodes_right)

/-- Running `do_splay` with enough fuel on a well-formed tree containing a node
ranked equal to the key terminates with result 0 and a reassembled tree
whose root is ranked equal to the key and whose node multiset is
unchanged. -/
theorem doSplay_finds (val : Nat → Int) (K : Int) (cmp : Nat → Int)
    (hcmp : ∀ n, n ≠ SHEAD → n ≠ STAIL → cmp n = signOf (val n - K))
    (hH : val SHEAD < K) (hT : K < val STAIL)
    (h : DHeap) (root fuel : Nat) (M : FTree)
    (habs : AbsD h (some root) M) (hbst : bstOk val none none M = true)
    (hm : ∃ m, m ∈ M.nodes ∧ val m = K)
    (hnd : (nodesM M).Nodup) (htmp : TMP ∉ nodesM M)
    (hsz : M.size ≤ fuel) :
    (doSplay cmp h root fuel).res = 0 ∧
    val (doSplay cmp h root fuel).root = K ∧
    ∃ M4, AbsD (doSplay cmp h root fuel).heap (some (doSplay cmp h root fuel).root) M4 ∧
      nodesM M4 = nodesM M := by
  have hMn : TMP ∉ M.nodes := fun hmem => htmp (mem_nodesM.2 hmem)
  have inv0 : LoopInv val K (updD h TMP (fun _ => ⟨none, none⟩))
      (updD h TMP (fun _ => ⟨none, none⟩)) root TMP TMP M [] [] (nodesM M) none none :=
    { habs := AbsD_frame M _ h TMP _ habs hMn
      hbst := hbst
      hK := rfl
      hm := hm
      hL := .nil TMP
      hR := .nil TMP
      hnd := hnd
      htmp := htmp
      horig := by simp [spineM]
      hframe := fun _ _ _ => rfl }
  obtain ⟨M2, L2, R2, lo2, hi2, hres, hvalK, inv2⟩ :=
    doSplayLoop_finds val K cmp hcmp hH hT fuel _ _ root TMP TMP M [] [] (nodesM M)
      none none [] inv0 hsz
  obtain ⟨M4, habs4, hn4⟩ := reassemble_of_inv val K _ _ _ _ _ M2 L2 R2 _ lo2 hi2 inv2
    _ _ _ _ rfl rfl rfl rfl
  unfold doSplay
  dsimp only
  exact ⟨hres, hvalK, M4, habs4, hn4⟩

/-- Calling `b6_splay_add` on a tree that already holds a node ranked equal to the
new reference returns that pre-existing node: the result triple returns it
as both the found reference and the root, it belongs to the original node
multiset, it differs from the new reference, and the tree holds exactly
the original nodes. -/
theorem splay_add_duplicate (val : Nat → Int) (comp : Nat → Nat → Int)
    (h : DHeap) (root ref fuel : Nat) (M : FTree)
    (hcmp : ∀ n, n ≠ SHEAD → n ≠ STAIL → comp n ref = signOf (val n - val ref))
    (hH : val SHEAD < val ref) (hT : val ref < val STAIL)
    (habs : AbsD h (some root) M) (hbst : bstOk val none none M = true)
    (hm : ∃ m, m ∈ M.nodes ∧ val m = val ref)
    (hnd : (nodesM M).Nodup) (htmp : TMP ∉ nodesM M) (href : ref ∉ nodesM M)
    (hsz : M.size ≤ fuel) :
    ∃ m h' M', splayAdd comp h root ref fuel = (m, h', m) ∧
      m ∈ nodesM M ∧ val m = val ref ∧ m ≠ ref ∧
      AbsD h' (some m) M' ∧ nodesM M' = nodesM M := by
  obtain ⟨hres, hvalK, M4, habs4, hn4⟩ :=
    doSplay_finds val (val ref) (fun n => comp n ref) hcmp hH hT h root fuel M
      habs hbst hm hnd htmp hsz
  have hmem : (doSplay (fun n => comp n ref) h root fuel).root ∈ nodesM M := by
    obtain ⟨l4, r4, he⟩ := AbsD_some_node habs4
    rw [← hn4, he, nodesM_node]
    exact Multiset.mem_add.2 (Or.inr (Multiset.mem_cons_self _ _))
  refine ⟨(doSplay (fun n => comp n ref) h root fuel).root,
    (doSplay (fun n => comp n ref) h root fuel).heap, M4, ?_, hmem, hvalK,
    fun he => href (he ▸ hmem), habs4, hn4⟩
  unfold splayAdd
  dsimp only
  rw [if_pos hres]

end B6Splay

namespace B6Tree

/-- Calling `b6_tree_add` on an AVL tree already holding a node ranked equal to
the key compared for: the search finds that node, the add returns it with
the heap untouched, and it differs from the reference that was to be
inserted. -/
theorem tree_add_duplicate (s : Heap) (cmp val : Nat → Int) (K : Int) (T : FTree)
    (ref fuel : Nat)
    (hcmp : ∀ n, n ≠ HEAD → n ≠ TAIL → cmp n = signOf (val n - K))
    (hH : val HEAD < K) (hT : K < val TAIL)
    (habs : AbsT s ((s ROOT).child PREV) T)
    (hbst : bstOk val none none T = true)
    (hm : ∃ m, m ∈ T.nodes ∧ val m = K)
    (hsz : T.size < fuel) (href : ref ∉ T.nodes) :
    ∃ m, treeAdd s cmp ref fuel = (m, s) ∧ m ∈ T.nodes ∧ val m = K ∧ m ≠ ref := by
  obtain ⟨m, hfound, hmm, hval⟩ := treeSearchLoop_finds s cmp val K hcmp hH hT T fuel
    ROOT PREV [] none none habs hbst rfl hm hsz
  refine ⟨m, ?_, hmm, hval, fun he => href (he ▸ hmm)⟩
  unfold treeAdd treeSearch
  dsimp only
  rw [hfound]

end B6Tree

/-- Claim C8: inserting into a balanced (AVL) tree or a splay tree a
reference that compares equal to a node already in the tree is not an
error: `b6_tree_add` returns the pre-existing equal node and leaves the
heap untouched, and `b6_splay_add` returns the pre-existing equal node
(splayed to the root) with the tree's node multiset unchanged; in both
cases the returned node differs from the reference the caller attempted
to insert, which is how the caller detects the duplicate. -/
theorem add_duplicate_returns_existing :
    (∀ (s : B6Tree.Heap) (cmp val : Nat → Int) (K : Int) (T : B6Tree.FTree)
        (ref fuel : Nat),
      (∀ n, n ≠ B6Tree.HEAD → n ≠ B6Tree.TAIL → cmp n = B6Tree.signOf (val n - K)) →
      val B6Tree.HEAD < K → K < val B6Tree.TAIL →
      B6Tree.AbsT s ((s B6Tree.ROOT).child B6Tree.PREV) T →
      B6Tree.bstOk val none none T = true →
      (∃ m, m ∈ T.nodes ∧ val m = K) →
      T.size < fuel → ref ∉ T.nodes →
      ∃ m, B6Tree.treeAdd s cmp ref fuel = (m, s) ∧
        m ∈ T.nodes ∧ val m = K ∧ m ≠ ref) ∧
    (∀ (val : Nat → Int) (comp : Nat → Nat → Int) (h : B6Splay.DHeap)
        (root ref fuel : Nat) (M : B6Tree.FTree),
      (∀ n, n ≠ B6Splay.SHEAD → n ≠ B6Splay.STAIL →
        comp n ref = B6Tree.signOf (val n - val ref)) →
      val B6Splay.SHEAD < val ref → val ref < val B6Splay.STAIL →
      B6Splay.AbsD h (some root) M →
      B6Tree.bstOk val none none M = true →
      (∃ m, m ∈ M.nodes ∧ val m = val ref) →
      (B6Splay.nodesM M).Nodup → B6Splay.TMP ∉ B6Splay.nodesM M →
      ref ∉ B6Splay.nodesM M → M.size ≤ fuel →
      ∃ m h2 M2, B6Splay.splayAdd comp h root ref fuel = (m, h2, m) ∧
        m ∈ B6Splay.nodesM M ∧ val m = val ref ∧ m ≠ ref ∧
        B6Splay.AbsD h2 (some m) M2 ∧ B6Splay.nodesM M2 = B6Splay.nodesM M) :=
  ⟨fun s cmp val K T ref fuel h1 h2 h3 h4 h5 h6 h7 h8 =>
    B6Tree.tree_add_duplicate s cmp val K T ref fuel h1 h2 h3 h4 h5 h6 h7 h8,
   fun val comp h root ref fuel M h1 h2 h3 h4 h5 h6 h7 h8 h9 h10 =>
    B6Splay.splay_add_duplicate val comp h root ref fuel M h1 h2 h3 h4 h5 h6 h7 h8 h9 h10⟩

/-- Ranking of the three-key AVL witness: sentinels far out, keys 10, 20,
30 on nodes 3, 4, 5. -/
def c8valT : Nat → Int := fun n =>
  if n = 0 then -100 else if n = 1 then 100
  else if n = 3 then 10 else if n = 4 then 20 else if n = 5 then 30 else 0

/-- Functional shape of the physical AVL tree `treeS3` (keys 10, 20, 30
plus both sentinels). -/
def c8T3 : B6Tree.FTree :=
  .node (.node .leaf 0 .leaf) 3 (.node (.node .leaf 4 .leaf) 5 (.node .leaf 1 .leaf))

/-- Ranking of the one-node splay witness: sentinels far out, every other
node at 10. -/
def c8valS : Nat → Int := fun n => if n = 0 then -100 else if n = 1 then 100 else 10

/-- Splay witness heap: the single node 3 with no children. -/
def c8heapS : B6Splay.DHeap := fun _ => ⟨none, none⟩

/-- Functional shape of the splay witness tree. -/
def c8MS : B6Tree.FTree := .node .leaf 3 .leaf

/-- Witness for the claim C8 theorem: adding a second key-20 reference (6)
to the 10/20/30 AVL tree returns a node of the tree ranked 20 other than 6
with the heap untouched, and splay-adding a reference (7) ranked equal to
the single node of a splay tree returns that node. -/
theorem add_duplicate_returns_existing_witness :
    (∃ m, B6Tree.treeAdd B6Tree.treeS3 (fun n => B6Tree.signOf (c8valT n - 20)) 6 6 =
        (m, B6Tree.treeS3) ∧ m ∈ c8T3.nodes ∧ c8valT m = 20 ∧ m ≠ 6) ∧
    (∃ m h2 M2,
      B6Splay.splayAdd (fun n r => B6Tree.signOf (c8valS n - c8valS r)) c8heapS 3 7 5 =
        (m, h2, m) ∧
      m ∈ B6Splay.nodesM c8MS ∧ c8valS m = c8valS 7 ∧ m ≠ 7 ∧
      B6Splay.AbsD h2 (some m) M2 ∧ B6Splay.nodesM M2 = B6Splay.nodesM c8MS) := by
  have habsT : B6Tree.AbsT B6Tree.treeS3
      ((B6Tree.treeS3 B6Tree.ROOT).child B6Tree.PREV) c8T3 := by
    rw [show (B6Tree.treeS3 B6Tree.ROOT).child B6Tree.PREV = some 3 from by decide]
    refine B6Tree.AbsT.node ?_ ?_
    · rw [show (B6Tree.treeS3 3).prev = some 0 from by decide]
      refine B6Tree.AbsT.node ?_ ?_
      · rw [show (B6Tree.treeS3 0).prev = none from by decide]
        exact B6Tree.AbsT.leaf
      · rw [show (B6Tree.treeS3 0).next = none from by decide]
        exact B6Tree.AbsT.leaf
    · rw [show (B6Tree.treeS3 3).next = some 5 from by decide]
      refine B6Tree.AbsT.node ?_ ?_
      · rw [show (B6Tree.treeS3 5).prev = some 4 from by decide]
        refine B6Tree.AbsT.node ?_ ?_
        · rw [show (B6Tree.treeS3 4).prev = none from by decide]
          exact B6Tree.AbsT.leaf
        · rw [show (B6Tree.treeS3 4).next = none from by decide]
          exact B6Tree.AbsT.leaf
      · rw [show (B6Tree.treeS3 5).next = some 1 from by decide]
        refine B6Tree.AbsT.node ?_ ?_
        · rw [show (B6Tree.treeS3 1).prev = none from by decide]
          exact B6Tree.AbsT.leaf
        · rw [show (B6Tree.treeS3 1).next = none from by decide]
          exact B6Tree.AbsT.leaf
  have habsS : B6Splay.AbsD c8heapS (some 3) c8MS :=
    B6Splay.AbsD.node B6Splay.AbsD.leaf B6Splay.AbsD.leaf
  exact ⟨add_duplicate_returns_existing.1 B6Tree.treeS3
      (fun n => B6Tree.signOf (c8valT n - 20)) c8valT 20 c8T3 6 6
      (fun n _ _ => rfl) (by decide) (by decide) habsT (by decide)
      ⟨4, by decide, by decide⟩ (by decide) (by decide),
    add_duplicate_returns_existing.2 c8valS
      (fun n r => B6Tree.signOf (c8valS n - c8valS r)) c8heapS 3 7 5 c8MS
      (fun n _ _ => rfl) (by decide) (by decide) habsS (by decide)
      ⟨3, by decide, by decide⟩ (by decide) (by decide) (by decide) (by decide)⟩
